import Mathlib

/-!
# caps: directive scan, type-name extraction, identifier disambiguation, pipeline

A verification development for `caps/main.go`.

* Go strings are modelled as lists of characters.  Every pattern of the
  program is an ASCII pattern whose classes and literals act in the same way
  on bytes and on runes, and `strings.Replace` with a non-empty `old` works on
  whole instances, so nothing is lost by reading a text character by
  character.
* The three patterns are given as syntax trees and run by a backtracking
  matcher that lists the matches at a cursor in Go's leftmost-first order;
  `MatchString`, `ReplaceAllString` and `FindAllStringSubmatch` are the
  library loops around it.
* `main` is a function from the flags and the answers of the environment to
  the trace of the actions that reach outside the process.  What it prints is
  left out.
-/

namespace Caps

/-- A Go string. -/
abbrev Str := List Char

/-! ## The fragment of Go regular expressions used by the program -/

/-- Abstract syntax of the patterns compiled by `regexp.MustCompile` in `main.go`. -/
inductive Re where
  | eps : Re
  | chr : Char → Re
  | cls : (Char → Bool) → Re
  | bol : Re
  | eol : Re
  | seq : Re → Re → Re
  | star : Re → Re
  | lazyStar : Re → Re
  | group : Re → Re

/-- A state of the backtracking matcher: the character before the cursor, the
text that is left, and the text of capture group 1 when it has been closed. -/
structure St where
  prev : Option Char
  rest : Str
  grp : Option Str
deriving DecidableEq

/-- Greedy repetition `x*`: one more iteration first, then stopping here.  An
iteration that consumes nothing is not repeated. -/
def starLoop (f : St → List St) : Nat → St → List St
  | 0, st => [st]
  | n + 1, st =>
    ((f st).filter (fun st2 => decide (st2.rest.length < st.rest.length))).flatMap (starLoop f n)
      ++ [st]

/-- Non-greedy repetition `x*?`: stopping here first, then one more iteration. -/
def lazyLoop (f : St → List St) : Nat → St → List St
  | 0, st => [st]
  | n + 1, st =>
    st :: ((f st).filter (fun st2 => decide (st2.rest.length < st.rest.length))).flatMap
      (lazyLoop f n)

/-- All ways the pattern matches at the cursor, in the order a backtracking
search finds them (Go's leftmost-first preference): the head of the list is
the match the library reports. -/
def run : Re → St → List St
  | .eps, st => [st]
  | .chr c, st =>
    match st.rest with
    | [] => []
    | d :: r => if d = c then [⟨some d, r, st.grp⟩] else []
  | .cls p, st =>
    match st.rest with
    | [] => []
    | d :: r => if p d then [⟨some d, r, st.grp⟩] else []
  | .bol, st => if st.prev = none ∨ st.prev = some '\n' then [st] else []
  | .eol, st =>
    match st.rest with
    | [] => [st]
    | d :: _ => if d = '\n' then [st] else []
  | .seq a b, st => (run a st).flatMap (run b)
  | .star a, st => starLoop (run a) st.rest.length st
  | .lazyStar a, st => lazyLoop (run a) st.rest.length st
  | .group a, st =>
    (run a st).map (fun st2 =>
      { st2 with grp := some (st.rest.take (st.rest.length - st2.rest.length)) })

/-- A literal string, as produced by `regexp.QuoteMeta`. -/
def lits : Str → Re
  | [] => .eps
  | c :: s => .seq (.chr c) (lits s)

/-- The pattern `x+`. -/
def plus (a : Re) : Re := .seq a (.star a)

/-- The class `[[:alpha:]]`: ASCII letters. -/
def isAlpha (c : Char) : Bool :=
  (decide ('a'.toNat ≤ c.toNat) && decide (c.toNat ≤ 'z'.toNat)) ||
  (decide ('A'.toNat ≤ c.toNat) && decide (c.toNat ≤ 'Z'.toNat))

/-- The class `[\r\n]`. -/
def isCRLF (c : Char) : Bool := c = '\r' || c = '\n'

/-- The dot without the `s` flag: any character but a line feed. -/
def dotNoNL (c : Char) : Bool := c != '\n'

/-- The dot under the `s` flag: any character. -/
def dotAll (_ : Char) : Bool := true

/-- `Regexp.MatchString`: is there a match starting anywhere in the text? -/
def matchFrom (re : Re) : Option Char → Str → Bool
  | prev, [] => !(run re ⟨prev, [], none⟩).isEmpty
  | prev, c :: s => !(run re ⟨prev, c :: s, none⟩).isEmpty || matchFrom re (some c) s

/-- `Regexp.MatchString`. -/
def matchString (re : Re) (s : Str) : Bool := matchFrom re none s

/-- The loop of `Regexp.ReplaceAllString` with a replacement that holds no
`$`: the text before a match is copied, a match is replaced, an empty match
right after a match is not replaced, and the scan always advances. -/
def replaceLoop (re : Re) (repl : Str) : Nat → Bool → Option Char → Str → Str
  | 0, _, _, s => s
  | fuel + 1, afterMatch, prev, s =>
    match run re ⟨prev, s, none⟩ with
    | st :: _ =>
      if st.rest.length < s.length then
        repl ++ replaceLoop re repl fuel true st.prev st.rest
      else
        (if afterMatch then [] else repl) ++
          (match s with
           | [] => []
           | c :: s2 => c :: replaceLoop re repl fuel false (some c) s2)
    | [] =>
      match s with
      | [] => []
      | c :: s2 => c :: replaceLoop re repl fuel false (some c) s2

/-- `Regexp.ReplaceAllString(src, repl)`. -/
def replaceAllString (re : Re) (src repl : Str) : Str :=
  replaceLoop re repl (src.length + 1) false none src

/-- The loop of `Regexp.FindAllStringSubmatch(s, -1)`: successive leftmost
matches that do not overlap, each given as the matched text and group 1. -/
def findAllLoop (re : Re) : Nat → Bool → Option Char → Str → List (Str × Str)
  | 0, _, _, _ => []
  | fuel + 1, afterMatch, prev, s =>
    match run re ⟨prev, s, none⟩ with
    | st :: _ =>
      if st.rest.length < s.length then
        (s.take (s.length - st.rest.length), st.grp.getD []) ::
          findAllLoop re fuel true st.prev st.rest
      else
        (if afterMatch then [] else [([], st.grp.getD [])]) ++
          (match s with
           | [] => []
           | c :: s2 => findAllLoop re fuel false (some c) s2)
    | [] =>
      match s with
      | [] => []
      | c :: s2 => findAllLoop re fuel false (some c) s2

/-- `Regexp.FindAllStringSubmatch(s, -1)`. -/
def findAllStringSubmatch (re : Re) (s : Str) : List (Str × Str) :=
  findAllLoop re (s.length + 1) false none s

/-! ## The constants and patterns of `main.go` -/

/-- The constant `CAPNP_CODEC_ANT`. -/
def CAPNP_CODEC_ANT : Str := "$Codec.capnp;".toList

/-- The constant `MSGP_CODEC_ANT`. -/
def MSGP_CODEC_ANT : Str := "$Codec.msgp;".toList

/-- The pattern `struct ([[:alpha:]]+)`. -/
def structTypeRe : Re := .seq (lits "struct ".toList) (.group (plus (.cls isAlpha)))

/-- The pattern `(?m)[\r\n]+^.*` ++ QuoteMeta(marker) ++ `.*$`. -/
def codecRe (marker : Str) : Re :=
  .seq (plus (.cls isCRLF))
    (.seq .bol (.seq (.star (.cls dotNoNL)) (.seq (lits marker)
      (.seq (.star (.cls dotNoNL)) .eol))))

/-- The pattern `capnpRe`. -/
def capnpRe : Re := codecRe CAPNP_CODEC_ANT

/-- The pattern `msgpRe`. -/
def msgpRe : Re := codecRe MSGP_CODEC_ANT

/-- The pattern `(?s)#.*?\n` of the comment removal. -/
def commentRe : Re := .seq (.chr '#') (.seq (.lazyStar (.cls dotAll)) (.chr '\n'))

/-- The text `cleanContent` of `main`: comments replaced by a line feed. -/
def cleanContent (sourceContent : Str) : Str :=
  replaceAllString commentRe sourceContent "\n".toList

/-- The flag `capnpGen` of `main`. -/
def capnpGen (sourceContent : Str) : Bool := matchString capnpRe (cleanContent sourceContent)

/-- The flag `msgpGen` of `main`. -/
def msgpGen (sourceContent : Str) : Bool := matchString msgpRe (cleanContent sourceContent)

/-- The type names `match[1]` of `structTypeRe.FindAllStringSubmatch(sourceContent, -1)`. -/
def typeNames (sourceContent : Str) : List Str :=
  (findAllStringSubmatch structTypeRe sourceContent).map (fun m => m.2)

/-! ## `strings.Replace` and the renaming loop -/

/-- `strings.Index(s, sep)`: the offset of the first instance of `sep` in `s`,
`none` where Go returns -1. -/
def index : Str → Str → Option Nat
  | [], sep => if sep = [] then some 0 else none
  | c :: s, sep => if sep <+: c :: s then some 0 else (index s sep).map (· + 1)

/-- The loop of `strings.Count(s, sep)` for a non-empty `sep`. -/
def countLoop (sep : Str) : Nat → Str → Nat
  | 0, _ => 0
  | fuel + 1, s =>
    match index s sep with
    | none => 0
    | some i => countLoop sep fuel (s.drop (i + sep.length)) + 1

/-- `strings.Count(s, sep)`: the number of non-overlapping instances of `sep`
in `s`, and one more than the number of characters when `sep` is empty. -/
def count (s sep : Str) : Nat :=
  if sep = [] then s.length + 1 else countLoop sep (s.length + 1) s

/-- The loop of `strings.Replace` for a non-empty `old`: `n` times, copy the
text up to the next instance of `old`, write `new`, and go on after it. -/
def replaceN (old new : Str) : Nat → Str → Str
  | 0, s => s
  | n + 1, s =>
    match index s old with
    | none => s
    | some j => s.take j ++ new ++ replaceN old new n (s.drop (j + old.length))

/-- `strings.Replace(s, old, new, -1)`. -/
def replace (s old new : Str) : Str :=
  if old = new then s
  else if old = [] then new ++ s.flatMap (fun c => c :: new)
  else replaceN old new (count s old) s

/-- The suffix `"Capn"` added to the Cap'n Proto types. -/
def capnSuffix : Str := "Capn".toList

/-- The renaming loop of `main` over the extracted type names. -/
def disambiguate (names : List Str) (content : Str) : Str :=
  names.foldl
    (fun content typeName =>
      if typeName ≠ [] then replace content typeName (typeName ++ capnSuffix) else content)
    content

/-! ## The run of `main` -/

/-- `strings.TrimSuffix`. -/
def trimSuffix (s suffix : Str) : Str :=
  if suffix <:+ s then s.take (s.length - suffix.length) else s

/-- The slice `capnpArgs` handed to `exec.Command("capnp", ...)`; `pkgDir` is
the directory found by `build.Import`. -/
def capnpArgs (pkgDir outdir source : Str) (capnpGen : Bool) : List Str :=
  let capsSchemaPath := "-I".toList ++ pkgDir
  let goSchemaPath := "-I".toList ++ pkgDir ++ "/vendor/github.com/glycerine/go-capnproto".toList
  let args := [capsSchemaPath, goSchemaPath, "compile".toList, "-opgo".toList]
  let args := if capnpGen then args ++ ["-ogo".toList] else args
  let args := if outdir ≠ ".".toList then args.map (fun a => a ++ outdir) else args
  args ++ [source]

/-- The command line flags. -/
structure Flags where
  outdir : Str
  source : Str
  verbose : Bool

/-- What the environment answers during one run. -/
structure World where
  pkgDir : Option Str
  sourceData : Option Str
  dirExists : Bool
  mkdirOk : Bool
  capnpOk : Bool
  capnpOut : Option Str
  writeOk : Bool
  msgpOk : Bool

/-- The actions of a run that reach outside the process. -/
inductive Event where
  | readFile : Str → Event
  | mkdirAll : Str → Event
  | exec : Str → List Str → Event
  | writeFile : Str → Str → Event
  | exit : Nat → Event
deriving DecidableEq

/-- The last stage of `main`: the Msgp generator. -/
def msgpStage (join : Str → Str → Str) (fl : Flags) (w : World) (sourceName : Str)
    (msgpGen : Bool) : List Event :=
  if msgpGen then
    let inFilename := join fl.outdir (sourceName ++ ".go".toList)
    let outFilename := join fl.outdir (sourceName ++ ".msgp.go".toList)
    let cmd := Event.exec "msgp".toList
      ["-o=".toList ++ outFilename, "-tests=false".toList, "-file=".toList ++ inFilename]
    if w.msgpOk then [cmd, .exit 0] else [cmd, .exit 1]
  else [.exit 0]

/-- The stage of `main` that adds the suffix to the Cap'n Proto types. -/
def capnStage (join : Str → Str → Str) (fl : Flags) (w : World)
    (sourceName sourceContent : Str) (capnpGen msgpGen : Bool) : List Event :=
  if capnpGen then
    let outFilename := join fl.outdir (sourceName ++ ".capnp.go".toList)
    match w.capnpOut with
    | none => [.readFile outFilename, .exit 1]
    | some data =>
      let content := disambiguate (typeNames sourceContent) data
      if w.writeOk then
        .readFile outFilename :: .writeFile outFilename content ::
          msgpStage join fl w sourceName msgpGen
      else [.readFile outFilename, .writeFile outFilename content, .exit 1]
  else msgpStage join fl w sourceName msgpGen

/-- The stage of `main` that runs `capnp`. -/
def capnpStage (join : Str → Str → Str) (fl : Flags) (w : World)
    (sourceName sourceContent pkgDir : Str) (capnpGen msgpGen : Bool) : List Event :=
  let cmd := Event.exec "capnp".toList (capnpArgs pkgDir fl.outdir fl.source capnpGen)
  if w.capnpOk then cmd :: capnStage join fl w sourceName sourceContent capnpGen msgpGen
  else [cmd, .exit 1]

/-- The function `main`, as the trace of its outside actions; `join` is
`filepath.Join`. -/
def main (join : Str → Str → Str) (fl : Flags) (w : World) : List Event :=
  if fl.source = [] then [.exit 1]
  else
    let sourceName := trimSuffix fl.source ".capnp".toList
    match w.pkgDir with
    | none => [.exit 1]
    | some pkgDir =>
      match w.sourceData with
      | none => [.readFile fl.source, .exit 1]
      | some sourceContent =>
        let cg := capnpGen sourceContent
        let mg := msgpGen sourceContent
        let stages := capnpStage join fl w sourceName sourceContent pkgDir cg mg
        if fl.outdir ≠ ".".toList then
          if w.dirExists then .readFile fl.source :: stages
          else if w.mkdirOk then .readFile fl.source :: .mkdirAll fl.outdir :: stages
          else [.readFile fl.source, .mkdirAll fl.outdir, .exit 1]
        else .readFile fl.source :: stages

/-! ## Notions used to state the properties -/

/-- The name list with the later copies of every name removed. -/
def dropLaterDuplicates : List Str → List Str
  | [] => []
  | n :: ns => n :: (dropLaterDuplicates ns).filter (fun m => decide (m ≠ n))

/-- A piece of a generated text: a character outside every instance of a
declared name, or an instance of a declared name. -/
inductive Seg where
  | plain : Char → Seg
  | site : Str → Seg
deriving DecidableEq

/-- The generated text as the generator wrote it. -/
def original : List Seg → Str
  | [] => []
  | .plain c :: segs => c :: original segs
  | .site n :: segs => n ++ original segs

/-- The generated text with `Capn` after every marked instance. -/
def suffixed : List Seg → Str
  | [] => []
  | .plain c :: segs => c :: suffixed segs
  | .site n :: segs => n ++ capnSuffix ++ suffixed segs

/-- Is there a marked instance of `b` at offset `k` of the original text? -/
def isSiteAt : List Seg → Nat → Str → Bool
  | [], _, _ => false
  | .plain _ :: _, 0, _ => false
  | .plain _ :: segs, k + 1, b => isSiteAt segs k b
  | .site n :: segs, k, b =>
    if k = 0 then decide (n = b)
    else if n.length ≤ k then isSiteAt segs (k - n.length) b else false

/-- The names of the marked instances. -/
def siteNames : List Seg → List Str
  | [] => []
  | .plain _ :: segs => siteNames segs
  | .site n :: segs => n :: siteNames segs

/-- Can `b` be read at some place of `a` followed by `Capn`, whatever text
comes after, so that it covers a character of the suffix? -/
def touchesSuffix (a b : Str) : Bool :=
  (List.range (a.length + capnSuffix.length)).any (fun k =>
    decide (a.length < k + b.length) &&
      (decide (b <+: (a ++ capnSuffix).drop k) || decide ((a ++ capnSuffix).drop k <+: b)))

/-- The text of one piece once the names of `done` have had their pass. -/
def piece (done : List Str) : Seg → Str
  | .plain c => [c]
  | .site n => if n ∈ done then n ++ capnSuffix else n

/-- The text once the names of `done` have had their pass. -/
def render (done : List Str) : List Seg → Str
  | [] => []
  | seg :: segs => piece done seg ++ render done segs

/-- In the text after the passes of `done`, an instance of `b` starts only at
a marked instance of `b`. -/
def Clean (done : List Str) (b : Str) : List Seg → Prop
  | [] => True
  | seg :: segs =>
    (∀ k, k < (piece done seg).length →
      b <+: (piece done seg ++ render done segs).drop k → k = 0 ∧ seg = .site b) ∧
    Clean done b segs

/-- The text after the first line feed, when there is one. -/
def afterNL : Str → Option Str
  | [] => none
  | c :: s => if c = '\n' then some s else afterNL s

/-- Comment removal read character by character.  Outside a comment (`none`)
a `#` opens one and any other character is copied; inside one (`some held`,
the text of the comment so far) a line feed closes it and is all that is left
of it, and at the end of the text an open comment is given back as it is. -/
def stripFrom : Option Str → Str → Str
  | none, [] => []
  | some held, [] => held
  | none, c :: s => if c = '#' then stripFrom (some ['#']) s else c :: stripFrom none s
  | some held, c :: s =>
    if c = '\n' then '\n' :: stripFrom none s else stripFrom (some (held ++ [c])) s

/-- The place after `u` lies in a comment that a line feed closes: a `#`
stands before it with no line feed in between, and a line feed comes after it
in `v`. -/
def InClosedComment (u v : Str) : Prop :=
  (∃ u1 u2, u = u1 ++ '#' :: u2 ∧ '\n' ∉ u2) ∧ '\n' ∈ v

/-- The declaration keyword with its blank. -/
def keyword : Str := "struct ".toList

/-- The class of the digits. -/
def isDigit (c : Char) : Bool := decide ('0'.toNat ≤ c.toNat) && decide (c.toNat ≤ '9'.toNat)

/-- The characters of an identifier: letters and digits. -/
def isIdentChar (c : Char) : Bool := isAlpha c || isDigit c

/-- The run of letters at the start of a text. -/
def letterRun (s : Str) : Str := s.takeWhile isAlpha

/-- A scan from left to right: where the keyword is followed by a name, the
name is taken and the scan goes on after it; elsewhere it moves on by one
character.  `skip` counts the characters still to pass over. -/
def scanDecls (name : Str → Str) : Nat → Str → List Str
  | _, [] => []
  | skip + 1, _ :: s => scanDecls name skip s
  | 0, c :: s =>
    if keyword <+: c :: s ∧ name ((c :: s).drop keyword.length) ≠ [] then
      name ((c :: s).drop keyword.length) ::
        scanDecls name (keyword.length + (name ((c :: s).drop keyword.length)).length - 1) s
    else scanDecls name 0 s

/-- The run of letters and digits after every place where the keyword is
read, whether or not an earlier name covers that place. -/
def namesAfterEveryKeyword : Str → List Str
  | [] => []
  | c :: s =>
    (if keyword <+: c :: s ∧ ((c :: s).drop keyword.length).takeWhile isIdentChar ≠ [] then
      [((c :: s).drop keyword.length).takeWhile isIdentChar]
    else []) ++ namesAfterEveryKeyword s

/-- The argument list in which the output directory is written after the
output flags and after nothing else. -/
def argsWithOutdirOnOutputFlags (pkgDir outdir source : Str) (capnpGen : Bool) : List Str :=
  ["-I".toList ++ pkgDir,
    "-I".toList ++ pkgDir ++ "/vendor/github.com/glycerine/go-capnproto".toList,
    "compile".toList, "-opgo".toList ++ outdir] ++
  (if capnpGen then ["-ogo".toList ++ outdir] else []) ++ [source]

/-- Is the event a call of the Msgp generator? -/
def isMsgp : Event → Bool
  | .exec name _ => decide (name = "msgp".toList)
  | _ => false

/-! ## Facts about `strings.Index`, `strings.Count` and `strings.Replace` -/

theorem index_at_start (s sep : Str) (h : sep <+: s) : index s sep = some 0 := by
  cases s with
  | nil =>
    have : sep = [] := List.prefix_nil.mp h
    simp [index, this]
  | cons c s => simp [index, h]

theorem index_cons_skip (c : Char) (s sep : Str) (h : ¬ sep <+: c :: s) :
    index (c :: s) sep = (index s sep).map (· + 1) := by
  simp [index, h]

theorem index_some (sep : Str) : ∀ (s : Str) (j : Nat), index s sep = some j →
    sep <+: s.drop j ∧ j + sep.length ≤ s.length ∧ ∀ k, k < j → ¬ sep <+: s.drop k
  | [], j, h => by
    by_cases hs : sep = []
    · simp [index, hs] at h
      subst h; subst hs
      simp
    · simp [index, hs] at h
  | c :: s, j, h => by
    by_cases hp : sep <+: c :: s
    · simp [index, hp] at h
      subst h
      refine ⟨by simpa using hp, by simpa using hp.length_le, by simp⟩
    · rw [index_cons_skip c s sep hp] at h
      cases hi : index s sep with
      | none => simp [hi] at h
      | some i =>
        simp [hi] at h
        subst h
        obtain ⟨h1, h2, h3⟩ := index_some sep s i hi
        refine ⟨by simpa using h1, by simp; omega, ?_⟩
        intro k hk
        cases k with
        | zero => simpa using hp
        | succ k => simpa using h3 k (by omega)

theorem index_none (sep : Str) : ∀ (s : Str), index s sep = none → ∀ k, ¬ sep <+: s.drop k
  | [], h, k => by
    by_cases hs : sep = []
    · simp [index, hs] at h
    · simpa using hs
  | c :: s, h, k => by
    by_cases hp : sep <+: c :: s
    · simp [index, hp] at h
    · rw [index_cons_skip c s sep hp] at h
      cases hi : index s sep with
      | some i => simp [hi] at h
      | none =>
        cases k with
        | zero => simpa using hp
        | succ k => simpa using index_none sep s hi k

theorem infix_iff_prefix_drop (sep s : Str) : sep <:+: s ↔ ∃ k, sep <+: s.drop k := by
  constructor
  · rintro ⟨u, v, h⟩
    refine ⟨u.length, ?_⟩
    rw [← h]
    simp
  · rintro ⟨k, v, h⟩
    refine ⟨s.take k, v, ?_⟩
    rw [List.append_assoc, h, List.take_append_drop]

theorem index_eq_none_iff (s sep : Str) : index s sep = none ↔ ¬ sep <:+: s := by
  rw [infix_iff_prefix_drop]
  constructor
  · intro h ⟨k, hk⟩
    exact index_none sep s h k hk
  · intro h
    cases hi : index s sep with
    | none => rfl
    | some j => exact absurd ⟨j, (index_some sep s j hi).1⟩ h

theorem countLoop_fuel (sep : Str) (hsep : sep ≠ []) : ∀ (f g : Nat) (s : Str),
    s.length < f → s.length < g → countLoop sep f s = countLoop sep g s
  | 0, _, _, hf, _ => by omega
  | _, 0, _, _, hg => by omega
  | f + 1, g + 1, s, hf, hg => by
    simp only [countLoop]
    cases hi : index s sep with
    | none => rfl
    | some i =>
      have hl := (index_some sep s i hi).2.1
      have hpos : 0 < sep.length := List.length_pos.mpr hsep
      simp only
      rw [countLoop_fuel sep hsep f g] <;> simp <;> omega

theorem count_unfold (s sep : Str) (hsep : sep ≠ []) :
    count s sep = match index s sep with
      | none => 0
      | some i => count (s.drop (i + sep.length)) sep + 1 := by
  unfold count
  simp only [hsep, if_false]
  rw [countLoop]
  cases hi : index s sep with
  | none => rfl
  | some i =>
    have hl := (index_some sep s i hi).2.1
    have hpos : 0 < sep.length := List.length_pos.mpr hsep
    simp only [Nat.add_right_cancel_iff]
    apply countLoop_fuel sep hsep
    · simp; omega
    · simp

theorem replace_unfold (s old new : Str) (hold : old ≠ []) (hne : old ≠ new) :
    replace s old new = match index s old with
      | none => s
      | some j => s.take j ++ new ++ replace (s.drop (j + old.length)) old new := by
  simp only [replace, hold, hne, if_false]
  rw [count_unfold s old hold]
  cases hi : index s old with
  | none => simp [replaceN]
  | some j => simp [replaceN, hi]

theorem replace_absent (s old new : Str) (hold : old ≠ []) (hne : old ≠ new)
    (h : ¬ old <:+: s) : replace s old new = s := by
  rw [replace_unfold s old new hold hne, (index_eq_none_iff s old).mpr h]

theorem replace_nil (old new : Str) (hold : old ≠ []) (hne : old ≠ new) :
    replace [] old new = [] :=
  replace_absent [] old new hold hne (by simpa using hold)

theorem replace_cons_skip (c : Char) (s old new : Str) (hold : old ≠ [])
    (hne : old ≠ new) (h : ¬ old <+: c :: s) :
    replace (c :: s) old new = c :: replace s old new := by
  rw [replace_unfold (c :: s) old new hold hne, replace_unfold s old new hold hne,
    index_cons_skip c s old h]
  cases hi : index s old with
  | none => simp
  | some j => simp [Nat.add_right_comm]

theorem replace_at_start (s old new : Str) (hold : old ≠ []) (hne : old ≠ new) :
    replace (old ++ s) old new = new ++ replace s old new := by
  rw [replace_unfold (old ++ s) old new hold hne,
    index_at_start (old ++ s) old (List.prefix_append old s)]
  simp

/-- Text in which no instance of `old` starts is copied as it is. -/
theorem replace_append_of_no_start (old new : Str) (hold : old ≠ []) (hne : old ≠ new) :
    ∀ (x rest : Str), (∀ k, k < x.length → ¬ old <+: (x ++ rest).drop k) →
      replace (x ++ rest) old new = x ++ replace rest old new
  | [], _, _ => rfl
  | c :: x, rest, h => by
    have h0 : ¬ old <+: c :: (x ++ rest) := by simpa using h 0 (by simp)
    rw [List.cons_append, replace_cons_skip c (x ++ rest) old new hold hne h0,
      replace_append_of_no_start old new hold hne x rest]
    · rfl
    · intro k hk
      simpa using h (k + 1) (by simpa using hk)

theorem length_replace (old new : Str) (hold : old ≠ []) (hne : old ≠ new) :
    ∀ (n : Nat) (s : Str), s.length ≤ n →
      (replace s old new).length + count s old * old.length
        = s.length + count s old * new.length
  | n, s, hn => by
    rw [replace_unfold s old new hold hne, count_unfold s old hold]
    cases hi : index s old with
    | none => simp
    | some j =>
      have hl := (index_some old s j hi).2.1
      have hpos : 0 < old.length := List.length_pos.mpr hold
      cases n with
      | zero => omega
      | succ n =>
        have ih := length_replace old new hold hne n (s.drop (j + old.length))
          (by simp; omega)
        simp only [List.length_append, List.length_take, List.length_drop] at ih ⊢
        rw [Nat.min_eq_left (by omega)]
        rw [Nat.add_mul, Nat.add_mul]
        omega

theorem count_eq_zero_iff (s old : Str) (hold : old ≠ []) :
    count s old = 0 ↔ ¬ old <:+: s := by
  rw [count_unfold s old hold, ← index_eq_none_iff]
  cases hi : index s old <;> simp

theorem occurs_after_replace (s old sfx : Str) (hold : old ≠ []) (hne : old ≠ old ++ sfx)
    (h : old <:+: s) : old <:+: replace s old (old ++ sfx) := by
  rw [replace_unfold s old _ hold hne]
  cases hi : index s old with
  | none => exact absurd h ((index_eq_none_iff s old).mp hi)
  | some j =>
    simp only
    exact ⟨s.take j, sfx ++ replace (s.drop (j + old.length)) old (old ++ sfx), by simp⟩

/-! ## The renaming loop -/

theorem ne_append_capn (n : Str) : n ≠ n ++ capnSuffix := by
  intro h
  have := congrArg List.length h
  simp [capnSuffix] at this

theorem disambiguate_nil (t : Str) : disambiguate [] t = t := rfl

theorem disambiguate_cons (n : Str) (ns : List Str) (t : Str) :
    disambiguate (n :: ns) t
      = disambiguate ns (if n ≠ [] then replace t n (n ++ capnSuffix) else t) := rfl

theorem disambiguate_cons_of_ne (n : Str) (ns : List Str) (t : Str) (hn : n ≠ []) :
    disambiguate (n :: ns) t = disambiguate ns (replace t n (n ++ capnSuffix)) := by
  rw [disambiguate_cons, if_pos hn]

theorem disambiguate_append (xs ys : List Str) (t : Str) :
    disambiguate (xs ++ ys) t = disambiguate ys (disambiguate xs t) := by
  simp [disambiguate, List.foldl_append]

theorem length_rename (n t : Str) (hn : n ≠ []) :
    (replace t n (n ++ capnSuffix)).length = t.length + 4 * count t n := by
  have h := length_replace n (n ++ capnSuffix) hn (ne_append_capn n) t.length t (le_refl _)
  have h4 : capnSuffix.length = 4 := rfl
  rw [List.length_append, h4, Nat.mul_add] at h
  omega

theorem length_disambiguate (names : List Str) : ∀ t : Str,
    ∃ k, (disambiguate names t).length = t.length + 4 * k := by
  induction names with
  | nil => intro t; exact ⟨0, rfl⟩
  | cons n ns ih =>
    intro t
    rw [disambiguate_cons]
    by_cases hn : n = []
    · simpa [hn] using ih t
    · obtain ⟨k, hk⟩ := ih (replace t n (n ++ capnSuffix))
      refine ⟨count t n + k, ?_⟩
      rw [if_pos hn, hk, length_rename n t hn]
      omega

theorem length_le_disambiguate (names : List Str) (t : Str) :
    t.length ≤ (disambiguate names t).length := by
  obtain ⟨k, hk⟩ := length_disambiguate names t
  omega

theorem disambiguate_longer (names : List Str) : ∀ t : Str,
    (∃ n ∈ names, n ≠ [] ∧ n <:+: t) → t.length < (disambiguate names t).length := by
  induction names with
  | nil => intro t ⟨n, hn, _⟩; simp at hn
  | cons m ns ih =>
    intro t ⟨n, hmem, hne, hin⟩
    rw [disambiguate_cons]
    by_cases hm : m = []
    · have hn' : n ∈ ns := by
        rcases List.mem_cons.mp hmem with h | h
        · exact absurd (h.trans hm) hne
        · exact h
      simpa [hm] using ih t ⟨n, hn', hne, hin⟩
    · rw [if_pos hm]
      have hlen := length_rename m t hm
      have hle := length_le_disambiguate ns (replace t m (m ++ capnSuffix))
      by_cases hocc : m <:+: t
      · have : count t m ≠ 0 := fun h => (count_eq_zero_iff t m hm).mp h hocc
        omega
      · have hn' : n ∈ ns := by
          rcases List.mem_cons.mp hmem with h | h
          · exact absurd (h ▸ hin) hocc
          · exact h
        rw [replace_absent t m _ hm (ne_append_capn m) hocc]
        exact ih t ⟨n, hn', hne, hin⟩

theorem disambiguate_eq_of_length_eq (names : List Str) : ∀ t : Str,
    (disambiguate names t).length = t.length → disambiguate names t = t := by
  induction names with
  | nil => intro t _; rfl
  | cons m ns ih =>
    intro t h
    rw [disambiguate_cons] at h ⊢
    by_cases hm : m = []
    · simp only [hm, ne_eq, not_true_eq_false, if_false] at h ⊢
      exact ih t h
    · rw [if_pos hm] at h ⊢
      have hlen := length_rename m t hm
      have hle := length_le_disambiguate ns (replace t m (m ++ capnSuffix))
      have hc : count t m = 0 := by omega
      have hno : ¬ m <:+: t := (count_eq_zero_iff t m hm).mp hc
      rw [replace_absent t m _ hm (ne_append_capn m) hno] at h ⊢
      exact ih t h

theorem infix_disambiguate_of_longer (names : List Str) : ∀ t : Str,
    t.length < (disambiguate names t).length →
      ∃ n ∈ names, n ≠ [] ∧ n <:+: disambiguate names t := by
  induction names with
  | nil => intro t h; simp [disambiguate] at h
  | cons m ns ih =>
    intro t h
    rw [disambiguate_cons] at h ⊢
    by_cases hm : m = []
    · simp only [hm, ne_eq, not_true_eq_false, if_false] at h ⊢
      obtain ⟨n, hn, hne, hin⟩ := ih t h
      exact ⟨n, List.mem_cons_of_mem _ hn, hne, hin⟩
    · rw [if_pos hm] at h ⊢
      have hle := length_le_disambiguate ns (replace t m (m ++ capnSuffix))
      by_cases hlt : (replace t m (m ++ capnSuffix)).length
          < (disambiguate ns (replace t m (m ++ capnSuffix))).length
      · obtain ⟨n, hn, hne, hin⟩ := ih _ hlt
        exact ⟨n, List.mem_cons_of_mem _ hn, hne, hin⟩
      · have heq := disambiguate_eq_of_length_eq ns (replace t m (m ++ capnSuffix)) (by omega)
        rw [heq] at h ⊢
        have hlen := length_rename m t hm
        have hocc : m <:+: t := by
          by_contra hno
          have := (count_eq_zero_iff t m hm).mpr hno
          omega
        exact ⟨m, List.mem_cons_self _ _, hm,
          occurs_after_replace t m capnSuffix hm (ne_append_capn m) hocc⟩

theorem disambiguate_absent (names : List Str) : ∀ t : Str,
    (∀ n ∈ names, n ≠ [] → ¬ n <:+: t) → disambiguate names t = t := by
  induction names with
  | nil => intro t _; rfl
  | cons m ns ih =>
    intro t h
    rw [disambiguate_cons]
    by_cases hm : m = []
    · simp only [hm, ne_eq, not_true_eq_false, if_false]
      exact ih t (fun n hn => h n (List.mem_cons_of_mem _ hn))
    · rw [if_pos hm, replace_absent t m _ hm (ne_append_capn m)
        (h m (List.mem_cons_self _ _) hm)]
      exact ih t (fun n hn => h n (List.mem_cons_of_mem _ hn))

/-- The leftmost instance: the text splits into a gap in which no instance
starts, the instance, and the rest. -/
theorem split_at_index (s old : Str) (j : Nat) (h : index s old = some j) :
    s = s.take j ++ old ++ s.drop (j + old.length) ∧
      ∀ k, k < (s.take j).length → ¬ old <+: (s.take j ++ old).drop k := by
  obtain ⟨⟨v, hv⟩, hl, hk⟩ := index_some old s j h
  have hdrop : s.drop (j + old.length) = v := by
    rw [← List.drop_drop, ← hv]
    simp
  have hs : s = s.take j ++ old ++ s.drop (j + old.length) := by
    rw [hdrop, List.append_assoc, hv, List.take_append_drop]
  refine ⟨hs, ?_⟩
  intro k hklt hpre
  have hkj : k < j := by
    simp only [List.length_take] at hklt
    omega
  apply hk k hkj
  have : s.drop k = (s.take j ++ old).drop k ++ s.drop (j + old.length) := by
    conv_lhs => rw [hs]
    rw [List.drop_append_of_le_length]
    simp only [List.length_append, List.length_take]
    omega
  rw [this]
  exact hpre.trans (List.prefix_append _ _)

/-- Every text splits at the successive leftmost instances of `n`. -/
theorem exists_leftmost_split (n : Str) (hn : n ≠ []) : ∀ (m : Nat) (t : Str), t.length ≤ m →
    ∃ (gaps : List Str) (last : Str),
      (∀ g ∈ gaps, ∀ k, k < g.length → ¬ n <+: (g ++ n).drop k) ∧ ¬ n <:+: last ∧
      t = gaps.flatMap (fun g => g ++ n) ++ last := by
  intro m
  induction m with
  | zero =>
    intro t ht
    have : t = [] := List.length_eq_zero.mp (Nat.le_zero.mp ht)
    subst this
    exact ⟨[], [], by simp, by simpa using hn, by simp⟩
  | succ m ih =>
    intro t ht
    cases hi : index t n with
    | none =>
      exact ⟨[], t, by simp, (index_eq_none_iff t n).mp hi, by simp⟩
    | some j =>
      obtain ⟨hs, hk⟩ := split_at_index t n j hi
      have hl := (index_some n t j hi).2.1
      have hpos : 0 < n.length := List.length_pos.mpr hn
      obtain ⟨gaps, last, hg, hlast, hrest⟩ :=
        ih (t.drop (j + n.length)) (by simp; omega)
      refine ⟨t.take j :: gaps, last, ?_, hlast, ?_⟩
      · intro g hgm
        rcases List.mem_cons.mp hgm with h | h
        · subst h; exact hk
        · exact hg g h
      · simp only [List.flatMap_cons, List.append_assoc]
        rw [← List.append_assoc (List.take j t), ← hrest]
        simpa [List.append_assoc] using hs

/-! ## The renaming loop on a text with marked instances -/

theorem render_nil_eq_original : ∀ segs : List Seg, render [] segs = original segs
  | [] => rfl
  | .plain c :: segs => by simp [render, piece, original, render_nil_eq_original segs]
  | .site n :: segs => by simp [render, piece, original, render_nil_eq_original segs]

theorem render_eq_suffixed (names : List Str) : ∀ segs : List Seg,
    (∀ n, Seg.site n ∈ segs → n ∈ names) → render names segs = suffixed segs
  | [], _ => rfl
  | .plain c :: segs, h => by
    simp [render, piece, suffixed,
      render_eq_suffixed names segs (fun n hn => h n (List.mem_cons_of_mem _ hn))]
  | .site n :: segs, h => by
    have hn : n ∈ names := h n (List.mem_cons_self _ _)
    simp [render, piece, suffixed, hn,
      render_eq_suffixed names segs (fun n hn => h n (List.mem_cons_of_mem _ hn))]

theorem prefix_append_cases {b x y : Str} (h : b <+: x ++ y) :
    b <+: x ∨ ∃ b2, b = x ++ b2 ∧ b2 <+: y := by
  rcases List.prefix_or_prefix_of_prefix h (List.prefix_append x y) with h1 | ⟨b2, h2⟩
  · exact Or.inl h1
  · refine Or.inr ⟨b2, h2.symm, ?_⟩
    rw [← h2] at h
    exact (List.prefix_append_right_inj x).mp h

/-- A text that holds no name of `done` and is read at the start of the text
after the passes is read at the start of the original text as well. -/
theorem prefix_original_of_prefix_render (done : List Str) : ∀ (segs : List Seg) (x : Str),
    (∀ a ∈ done, ¬ a <:+: x) → x <+: render done segs → x <+: original segs
  | [], x, _, h => by simpa [render, original] using h
  | .plain c :: segs, x, hx, h => by
    simp only [render, piece, original, List.singleton_append] at h ⊢
    cases x with
    | nil => exact List.nil_prefix
    | cons d x =>
      obtain ⟨hd, hrest⟩ := List.cons_prefix_cons.mp h
      subst hd
      refine List.cons_prefix_cons.mpr ⟨rfl, ?_⟩
      exact prefix_original_of_prefix_render done segs x
        (fun a ha hin => hx a ha (hin.trans (List.suffix_cons _ _).isInfix)) hrest
  | .site n :: segs, x, hx, h => by
    simp only [render, piece, original] at h ⊢
    by_cases hn : n ∈ done
    · rw [if_pos hn, List.append_assoc] at h
      rcases prefix_append_cases h with h1 | ⟨x2, h2, _⟩
      · exact h1.trans (List.prefix_append _ _)
      · exact absurd ⟨[], x2, by simpa using h2.symm⟩ (hx n hn)
    · rw [if_neg hn] at h
      rcases prefix_append_cases h with h1 | ⟨x2, h2, h3⟩
      · exact h1.trans (List.prefix_append _ _)
      · subst h2
        refine (List.prefix_append_right_inj n).mpr ?_
        exact prefix_original_of_prefix_render done segs x2
          (fun a ha hin => hx a ha (hin.trans (List.suffix_append _ _).isInfix)) h3

theorem prefix_append_original_of_render (done : List Str) (segs : List Seg) (y x : Str)
    (hx : ∀ a ∈ done, ¬ a <:+: x) (h : x <+: y ++ render done segs) :
    x <+: y ++ original segs := by
  rcases prefix_append_cases h with h1 | ⟨x2, h2, h3⟩
  · exact h1.trans (List.prefix_append _ _)
  · subst h2
    refine (List.prefix_append_right_inj y).mpr ?_
    exact prefix_original_of_prefix_render done segs x2
      (fun a ha hin => hx a ha (hin.trans (List.suffix_append _ _).isInfix)) h3

theorem touchesSuffix_false {a b : Str} (h : touchesSuffix a b = false) (k : Nat)
    (hk : k < a.length + capnSuffix.length) (hlen : a.length < k + b.length) :
    ¬ b <+: (a ++ capnSuffix).drop k ∧ ¬ (a ++ capnSuffix).drop k <+: b := by
  simp only [touchesSuffix, List.any_eq_false, List.mem_range] at h
  have := h k hk
  simp only [Bool.and_eq_true, Bool.or_eq_true, decide_eq_true_eq, not_and, not_or] at this
  exact this hlen

theorem mem_siteNames : ∀ (segs : List Seg) (n : Str), Seg.site n ∈ segs → n ∈ siteNames segs
  | [], _, h => by simp at h
  | .plain c :: segs, n, h => by
    simp only [List.mem_cons] at h
    rcases h with h | h
    · exact Seg.noConfusion h
    · exact mem_siteNames segs n h
  | .site m :: segs, n, h => by
    simp only [List.mem_cons, Seg.site.injEq] at h
    rcases h with h | h
    · simp [siteNames, h]
    · exact List.mem_cons_of_mem _ (mem_siteNames segs n h)

theorem piece_nil_length_pos (seg : Seg) (hne : ∀ n, seg = .site n → n ≠ []) :
    0 < (piece [] seg).length := by
  cases seg with
  | plain c => simp [piece]
  | site n => simpa [piece] using List.length_pos.mpr (hne n rfl)

theorem original_cons (seg : Seg) (segs : List Seg) :
    original (seg :: segs) = piece [] seg ++ original segs := by
  cases seg <;> simp [original, piece]

theorem isSiteAt_shift (seg : Seg) (segs : List Seg) (k : Nat) (b : Str)
    (hne : ∀ n, seg = .site n → n ≠ [])
    (h : isSiteAt (seg :: segs) (k + (piece [] seg).length) b = true) :
    isSiteAt segs k b = true := by
  cases seg with
  | plain c => simpa [isSiteAt, piece] using h
  | site n =>
    have hpos : 0 < n.length := List.length_pos.mpr (hne n rfl)
    have hk : k + n.length ≠ 0 := by omega
    simpa [isSiteAt, piece, hk] using h

theorem isSiteAt_head (seg : Seg) (segs : List Seg) (k : Nat) (b : Str)
    (hk : k < (piece [] seg).length) (h : isSiteAt (seg :: segs) k b = true) :
    k = 0 ∧ seg = .site b := by
  cases seg with
  | plain c =>
    simp only [piece, List.length_singleton, Nat.lt_one_iff] at hk
    subst hk
    simp [isSiteAt] at h
  | site n =>
    simp only [piece, List.not_mem_nil, if_false] at hk
    by_cases h0 : k = 0
    · subst h0
      simp only [isSiteAt, if_true, decide_eq_true_eq] at h
      exact ⟨rfl, by rw [h]⟩
    · have : ¬ n.length ≤ k := by omega
      simp [isSiteAt, h0, this] at h

/-- When every instance of `b` in the original text is a marked one, no
instance of `b` starts elsewhere. -/
theorem clean_original (b : Str) : ∀ segs : List Seg,
    (∀ n, Seg.site n ∈ segs → n ≠ []) →
    (∀ k, b <+: (original segs).drop k → isSiteAt segs k b = true) → Clean [] b segs
  | [], _, _ => trivial
  | seg :: segs, hne, h => by
    have hseg : ∀ n, seg = .site n → n ≠ [] :=
      fun n hn => hne n (hn ▸ List.mem_cons_self _ _)
    refine ⟨?_, clean_original b segs (fun n hn => hne n (List.mem_cons_of_mem _ hn)) ?_⟩
    · intro k hk hpre
      rw [render_nil_eq_original, ← original_cons] at hpre
      exact isSiteAt_head seg segs k b hk (h k hpre)
    · intro k hpre
      apply isSiteAt_shift seg segs k b hseg
      apply h
      rw [original_cons, Nat.add_comm, ← List.drop_drop]
      simpa using hpre

/-- The passes of other names leave no new instance of `b`. -/
theorem clean_render (done : List Str) (b : Str)
    (hpart1 : ∀ a ∈ done, ¬ a <:+: b) (hpart2 : ∀ a ∈ done, ¬ b <:+: a)
    (hsfx : ∀ a ∈ done, touchesSuffix a b = false) :
    ∀ segs : List Seg, Clean [] b segs → Clean done b segs
  | [], _ => trivial
  | seg :: segs, ⟨hhead, htail⟩ => by
    refine ⟨?_, clean_render done b hpart1 hpart2 hsfx segs htail⟩
    intro k hk hpre
    rw [render_nil_eq_original] at hhead
    cases seg with
    | plain c =>
      apply hhead k (by simpa [piece] using hk)
      simp only [piece, List.length_singleton, Nat.lt_one_iff] at hk
      subst hk
      simp only [piece, List.drop_zero] at hpre ⊢
      exact prefix_append_original_of_render done segs [c] b hpart1 hpre
    | site n =>
      by_cases hn : n ∈ done
      · exfalso
        simp only [piece, if_pos hn] at hk hpre
        rw [List.drop_append_of_le_length (Nat.le_of_lt hk)] at hpre
        by_cases hlen : n.length < k + b.length
        · have hcmp := List.prefix_or_prefix_of_prefix hpre (List.prefix_append _ _)
          have hno := touchesSuffix_false (hsfx n hn) k (by simpa using hk) hlen
          rcases hcmp with h1 | h1
          · exact hno.1 h1
          · exact hno.2 h1
        · have hkn : k ≤ n.length := by omega
          have hd : (n ++ capnSuffix).drop k = n.drop k ++ capnSuffix :=
            List.drop_append_of_le_length hkn
          rw [hd, List.append_assoc] at hpre
          have hb : b <+: n.drop k :=
            List.prefix_of_prefix_length_le hpre (List.prefix_append _ _)
              (by simp only [List.length_drop]; omega)
          exact hpart2 n hn (hb.isInfix.trans (List.drop_suffix k n).isInfix)
      · simp only [piece, if_neg hn] at hk hpre
        apply hhead k (by simpa [piece] using hk)
        simp only [piece, List.not_mem_nil, if_false]
        rw [List.drop_append_of_le_length (Nat.le_of_lt hk)] at hpre ⊢
        exact prefix_append_original_of_render done segs _ b hpart1 hpre

/-- One pass of the loop, for a name whose instances in the current text are
the marked ones: they receive the suffix, the rest is copied. -/
theorem replace_render (done : List Str) (b : Str) (hb : b ≠ []) (hdone : b ∉ done) :
    ∀ segs : List Seg, Clean done b segs →
      replace (render done segs) b (b ++ capnSuffix) = render (b :: done) segs
  | [], _ => replace_nil b _ hb (ne_append_capn b)
  | seg :: segs, ⟨hhead, htail⟩ => by
    have ih := replace_render done b hb hdone segs htail
    by_cases hseg : seg = .site b
    · subst hseg
      simp only [render, piece, if_neg hdone, List.mem_cons, true_or, if_true]
      rw [replace_at_start _ b _ hb (ne_append_capn b), ih]
    · have hp : piece (b :: done) seg = piece done seg := by
        cases seg with
        | plain c => rfl
        | site n =>
          have hnb : n ≠ b := fun h => hseg (by rw [h])
          simp [piece, hnb]
      simp only [render]
      rw [replace_append_of_no_start b _ hb (ne_append_capn b), ih, hp]
      intro k hk hpre
      exact hseg (hhead k hk hpre).2

/-- The loop over names that still wait for their pass. -/
theorem disambiguate_render (names : List Str) (segs : List Seg)
    (hne : ∀ n ∈ names, n ≠ [])
    (hpart : ∀ a ∈ names, ∀ b ∈ names, a <:+: b → a = b)
    (hsfx : ∀ a ∈ names, ∀ b ∈ names, a ≠ b → touchesSuffix a b = false)
    (hclean : ∀ b ∈ names, Clean [] b segs) :
    ∀ (pending done : List Str), pending.Nodup → (∀ b ∈ pending, b ∈ names) →
      (∀ a ∈ done, a ∈ names) → (∀ b ∈ pending, b ∉ done) →
      ∃ done2 : List Str, (∀ n, n ∈ done2 ↔ n ∈ pending ∨ n ∈ done) ∧
        disambiguate pending (render done segs) = render done2 segs
  | [], done, _, _, _, _ => ⟨done, by simp, rfl⟩
  | b :: ps, done, hnd, hp, hd, hdisj => by
    have hbn : b ∈ names := hp b (List.mem_cons_self _ _)
    have hbd : b ∉ done := hdisj b (List.mem_cons_self _ _)
    have hab : ∀ a ∈ done, a ≠ b := fun a ha h => hbd (h ▸ ha)
    have hc : Clean done b segs :=
      clean_render done b
        (fun a ha hin => hab a ha (hpart a (hd a ha) b hbn hin))
        (fun a ha hin => hab a ha (hpart b hbn a (hd a ha) hin).symm)
        (fun a ha => hsfx a (hd a ha) b hbn (hab a ha)) segs (hclean b hbn)
    obtain ⟨done2, hmem, heq⟩ :=
      disambiguate_render names segs hne hpart hsfx hclean ps (b :: done)
        (List.nodup_cons.mp hnd).2 (fun n hn => hp n (List.mem_cons_of_mem _ hn))
        (fun a ha => by
          rcases List.mem_cons.mp ha with h | h
          · exact h ▸ hbn
          · exact hd a h)
        (fun n hn hcon => by
          rcases List.mem_cons.mp hcon with h | h
          · exact (List.nodup_cons.mp hnd).1 (h ▸ hn)
          · exact hdisj n (List.mem_cons_of_mem _ hn) h)
    refine ⟨done2, ?_, ?_⟩
    · intro n
      rw [hmem n]
      simp only [List.mem_cons]
      tauto
    · rw [disambiguate_cons_of_ne b ps _ (hne b hbn), replace_render done b (hne b hbn) hbd segs hc]
      exact heq

theorem render_congr (d1 d2 : List Str) (h : ∀ n, n ∈ d1 ↔ n ∈ d2) :
    ∀ segs : List Seg, render d1 segs = render d2 segs
  | [] => rfl
  | .plain c :: segs => by simp [render, piece, render_congr d1 d2 h segs]
  | .site n :: segs => by simp [render, piece, h n, render_congr d1 d2 h segs]

/-! ## The matcher on the patterns of the program -/

theorem run_seq (a b : Re) (st : St) : run (.seq a b) st = (run a st).flatMap (run b) := rfl

theorem run_star (a : Re) (st : St) : run (.star a) st = starLoop (run a) st.rest.length st := rfl

theorem run_group (a : Re) (st : St) :
    run (.group a) st = (run a st).map (fun st2 =>
      { st2 with grp := some (st.rest.take (st.rest.length - st2.rest.length)) }) := rfl

theorem self_mem_starLoop (f : St → List St) (n : Nat) (st : St) : st ∈ starLoop f n st := by
  cases n <;> simp [starLoop]

theorem mem_run_seq {a b : Re} {st st2 st3 : St} (h1 : st2 ∈ run a st) (h2 : st3 ∈ run b st2) :
    st3 ∈ run (.seq a b) st := by
  simp only [run, List.mem_flatMap]
  exact ⟨st2, h1, h2⟩

/-- A literal matches exactly when it is read at the cursor. -/
theorem run_lits : ∀ (m : Str) (p : Option Char) (s : Str) (g : Option Str),
    run (lits m) ⟨p, s, g⟩
      = if m <+: s then [⟨(m.getLast?).or p, s.drop m.length, g⟩] else []
  | [], p, s, g => by simp [lits, run]
  | c :: m, p, s, g => by
    cases s with
    | nil => simp [lits, run]
    | cons d s =>
      by_cases hd : d = c
      · subst hd
        simp only [lits, run, if_true, List.flatMap_cons, List.flatMap_nil, List.append_nil,
          List.cons_prefix_cons, true_and, List.length_cons, List.drop_succ_cons]
        rw [run_lits m (some d) s g]
        by_cases hm : m <+: s
        · simp only [if_pos hm]
          cases m with
          | nil => simp
          | cons e m =>
            obtain ⟨x, hx⟩ : ∃ x, (e :: m).getLast? = some x :=
              ⟨_, List.getLast?_eq_getLast _ (by simp)⟩
            simp [List.getLast?_cons_cons, hx]
        · simp [hm]
      · have : ¬ (c :: m <+: d :: s) := by
          intro h
          exact hd (List.cons_prefix_cons.mp h).1.symm
        simp [lits, run, hd, this]

/-- The greedy star of a class: the first result is the cursor after the
longest run of characters of the class. -/
theorem starLoop_cls_head (p : Char → Bool) (g : Option Str) :
    ∀ (r : Str) (n : Nat) (q : Option Char), r.length ≤ n →
      ∃ q2 tl, starLoop (run (.cls p)) n ⟨q, r, g⟩ = ⟨q2, r.dropWhile p, g⟩ :: tl
  | [], n, q, _ => by
    cases n <;> simp [starLoop, run]
  | c :: r, 0, q, h => by simp at h
  | c :: r, n + 1, q, h => by
    by_cases hc : p c = true
    · obtain ⟨q2, tl, hh⟩ := starLoop_cls_head p g r n (some c) (by simpa using h)
      refine ⟨q2, tl ++ [⟨q, c :: r, g⟩], ?_⟩
      have hrun : run (.cls p) ⟨q, c :: r, g⟩ = [⟨some c, r, g⟩] := by simp [run, hc]
      rw [starLoop, hrun]
      simp [hh, hc]
    · refine ⟨q, [], ?_⟩
      simp [starLoop, run, hc]

/-- The results of `.*?` followed by a line feed, under the `s` flag: none
when no line feed is left, and first of all the cursor after the first one. -/
theorem lazy_then_nl (g : Option Str) :
    ∀ (r : Str) (n : Nat) (q : Option Char), r.length ≤ n →
      (afterNL r = none →
        (lazyLoop (run (.cls dotAll)) n ⟨q, r, g⟩).flatMap (run (.chr '\n')) = []) ∧
      (∀ r2, afterNL r = some r2 → ∃ tl,
        (lazyLoop (run (.cls dotAll)) n ⟨q, r, g⟩).flatMap (run (.chr '\n'))
          = ⟨some '\n', r2, g⟩ :: tl)
  | [], n, q, _ => by
    cases n <;> simp [lazyLoop, run, afterNL]
  | c :: r, 0, q, h => by simp at h
  | c :: r, n + 1, q, h => by
    obtain ⟨ih1, ih2⟩ := lazy_then_nl g r n (some c) (by simpa using h)
    by_cases hc : c = '\n'
    · subst hc
      constructor
      · intro h0; simp [afterNL] at h0
      · intro r2 h2
        simp only [afterNL, if_true, Option.some.injEq] at h2
        subst h2
        exact ⟨_, by simp [lazyLoop, run, dotAll]; rfl⟩
    · constructor
      · intro h0
        simp only [afterNL, hc, if_false] at h0
        simpa [lazyLoop, run, dotAll, hc] using ih1 h0
      · intro r2 h2
        simp only [afterNL, hc, if_false] at h2
        obtain ⟨tl, htl⟩ := ih2 r2 h2
        exact ⟨tl, by simpa [lazyLoop, run, dotAll, hc] using htl⟩

theorem afterNL_length : ∀ (r r2 : Str), afterNL r = some r2 → r2.length < r.length
  | [], _, h => by simp [afterNL] at h
  | c :: r, r2, h => by
    by_cases hc : c = '\n'
    · simp only [afterNL, hc, if_true, Option.some.injEq] at h
      subst h; simp
    · simp only [afterNL, hc, if_false] at h
      have := afterNL_length r r2 h
      simp only [List.length_cons]
      omega

/-- The comment pattern at a cursor. -/
theorem run_commentRe (q : Option Char) (s : Str) :
    (∀ c r, s = c :: r → c ≠ '#' → run commentRe ⟨q, s, none⟩ = []) ∧
    (s = [] → run commentRe ⟨q, s, none⟩ = []) ∧
    (∀ r, s = '#' :: r → afterNL r = none → run commentRe ⟨q, s, none⟩ = []) ∧
    (∀ r r2, s = '#' :: r → afterNL r = some r2 →
      ∃ tl, run commentRe ⟨q, s, none⟩ = ⟨some '\n', r2, none⟩ :: tl) := by
  refine ⟨?_, ?_, ?_, ?_⟩
  · intro c r hs hc
    subst hs
    simp [commentRe, run, hc]
  · intro hs
    subst hs
    simp [commentRe, run]
  · intro r hs h0
    subst hs
    have := (lazy_then_nl none r r.length (some '#') (le_refl _)).1 h0
    simpa [commentRe, run] using this
  · intro r r2 hs h2
    subst hs
    obtain ⟨tl, htl⟩ := (lazy_then_nl none r r.length (some '#') (le_refl _)).2 r2 h2
    exact ⟨tl, by simpa [commentRe, run] using htl⟩

theorem stripFrom_some : ∀ (s held : Str),
    stripFrom (some held) s = match afterNL s with
      | some r => '\n' :: stripFrom none r
      | none => held ++ s
  | [], held => by simp [stripFrom, afterNL]
  | c :: s, held => by
    by_cases hc : c = '\n'
    · simp [stripFrom, afterNL, hc]
    · simp [stripFrom, afterNL, hc, stripFrom_some s (held ++ [c])]

theorem stripFrom_none_of_no_nl : ∀ (s : Str), afterNL s = none → stripFrom none s = s
  | [], _ => rfl
  | c :: s, h => by
    have hc : c ≠ '\n' := by
      intro hc; simp [afterNL, hc] at h
    have hs : afterNL s = none := by simpa [afterNL, hc] using h
    by_cases h1 : c = '#'
    · simp [stripFrom, h1, stripFrom_some, hs]
    · simp [stripFrom, h1, stripFrom_none_of_no_nl s hs]

/-- The library loop with the comment pattern is the reading character by
character. -/
theorem replaceLoop_comment : ∀ (fuel : Nat) (s : Str) (am : Bool) (q : Option Char),
    s.length < fuel → replaceLoop commentRe "\n".toList fuel am q s = stripFrom none s
  | 0, _, _, _, h => by omega
  | fuel + 1, s, am, q, h => by
    obtain ⟨h1, h2, h3, h4⟩ := run_commentRe q s
    cases s with
    | nil => simp [replaceLoop, h2 rfl, stripFrom]
    | cons c r =>
      have hr : r.length < fuel := by simpa using h
      by_cases hc : c = '#'
      · subst hc
        cases hn : afterNL r with
        | none =>
          simp only [replaceLoop, h3 r rfl hn, stripFrom, if_true]
          rw [replaceLoop_comment fuel r false _ hr, stripFrom_some, hn,
            stripFrom_none_of_no_nl r hn]
          rfl
        | some r2 =>
          obtain ⟨tl, htl⟩ := h4 r r2 rfl hn
          have hlen := afterNL_length r r2 hn
          have hlt : r2.length < ('#' :: r).length := by simp only [List.length_cons]; omega
          simp only [replaceLoop, htl, if_pos hlt, stripFrom, if_true]
          rw [replaceLoop_comment fuel r2 true _ (by omega), stripFrom_some, hn]
          rfl
      · simp only [replaceLoop, h1 c r rfl hc, stripFrom, if_neg hc]
        rw [replaceLoop_comment fuel r false _ hr]

theorem cleanContent_eq (s : Str) : cleanContent s = stripFrom none s :=
  replaceLoop_comment (s.length + 1) s false none (Nat.lt_succ_self _)

theorem stripFrom_append_nl : ∀ (pre : Str) (mode : Option Str) (rest : Str),
    ∃ X, stripFrom mode (pre ++ '\n' :: rest) = X ++ '\n' :: stripFrom none rest
  | [], none, rest => ⟨[], by simp [stripFrom]⟩
  | [], some held, rest => ⟨[], by simp [stripFrom]⟩
  | c :: pre, none, rest => by
    by_cases hc : c = '#'
    · obtain ⟨X, hX⟩ := stripFrom_append_nl pre (some ['#']) rest
      exact ⟨X, by simp [stripFrom, hc, hX]⟩
    · obtain ⟨X, hX⟩ := stripFrom_append_nl pre none rest
      exact ⟨c :: X, by simp [stripFrom, hc, hX]⟩
  | c :: pre, some held, rest => by
    by_cases hc : c = '\n'
    · obtain ⟨X, hX⟩ := stripFrom_append_nl pre none rest
      exact ⟨'\n' :: X, by simp [stripFrom, hc, hX]⟩
    · obtain ⟨X, hX⟩ := stripFrom_append_nl pre (some (held ++ [c])) rest
      exact ⟨X, by simp [stripFrom, hc, hX]⟩

theorem stripFrom_append_of_no_hash : ∀ (x rest : Str), '#' ∉ x →
    stripFrom none (x ++ rest) = x ++ stripFrom none rest
  | [], _, _ => rfl
  | c :: x, rest, h => by
    have hc : c ≠ '#' := fun hc => h (by simp [hc])
    have hx : '#' ∉ x := fun hx => h (List.mem_cons_of_mem _ hx)
    simp [stripFrom, hc, stripFrom_append_of_no_hash x rest hx]

theorem stripFrom_line_end (post : Str) (hpost : post = [] ∨ ∃ p, post = '\n' :: p) :
    stripFrom none post = [] ∨ ∃ p, stripFrom none post = '\n' :: p := by
  rcases hpost with h | ⟨p, h⟩
  · subst h; exact Or.inl rfl
  · subst h; exact Or.inr ⟨stripFrom none p, by simp [stripFrom]⟩

theorem matchFrom_append (re : Re) (s : Str) (h : ∀ p, run re ⟨p, s, none⟩ ≠ []) :
    ∀ (X : Str) (prev : Option Char), matchFrom re prev (X ++ s) = true
  | [], prev => by
    cases s with
    | nil => simpa [matchFrom, List.isEmpty_iff] using h prev
    | cons c s =>
      have := h prev
      simp [matchFrom, List.isEmpty_iff, this]
  | c :: X, prev => by
    simp [matchFrom, matchFrom_append re s h X (some c)]

/-- The codec pattern matches at a line feed followed by a line that is the
marker. -/
theorem run_codecRe_marker_line (marker Y : Str) (hY : Y = [] ∨ ∃ p, Y = '\n' :: p)
    (q : Option Char) : run (codecRe marker) ⟨q, '\n' :: (marker ++ Y), none⟩ ≠ [] := by
  have h1 : (⟨some '\n', marker ++ Y, none⟩ : St)
      ∈ run (plus (.cls isCRLF)) ⟨q, '\n' :: (marker ++ Y), none⟩ := by
    apply @mem_run_seq _ _ _ ⟨some '\n', marker ++ Y, none⟩
    · simp [run, isCRLF]
    · simp only [run]
      exact self_mem_starLoop _ _ _
  have h2 : (⟨some '\n', marker ++ Y, none⟩ : St)
      ∈ run .bol ⟨some '\n', marker ++ Y, none⟩ := by simp [run]
  have h3 : (⟨some '\n', marker ++ Y, none⟩ : St)
      ∈ run (.star (.cls dotNoNL)) ⟨some '\n', marker ++ Y, none⟩ := by
    simp only [run]
    exact self_mem_starLoop _ _ _
  have h4 : (⟨(marker.getLast?).or (some '\n'), Y, none⟩ : St)
      ∈ run (lits marker) ⟨some '\n', marker ++ Y, none⟩ := by
    rw [run_lits, if_pos (List.prefix_append _ _)]
    simp
  have h5 : (⟨(marker.getLast?).or (some '\n'), Y, none⟩ : St)
      ∈ run (.star (.cls dotNoNL)) ⟨(marker.getLast?).or (some '\n'), Y, none⟩ := by
    simp only [run]
    exact self_mem_starLoop _ _ _
  have h6 : (⟨(marker.getLast?).or (some '\n'), Y, none⟩ : St)
      ∈ run .eol ⟨(marker.getLast?).or (some '\n'), Y, none⟩ := by
    rcases hY with h | ⟨p, h⟩ <;> subst h <;> simp [run]
  have hall := mem_run_seq h1 (mem_run_seq h2 (mem_run_seq h3 (mem_run_seq h4
    (mem_run_seq h5 h6))))
  exact List.ne_nil_of_mem hall

/-- A marker that is a whole line after the first line is found. -/
theorem matchString_marker_line (marker : Str) (hm : '#' ∉ marker) (pre post : Str)
    (hpost : post = [] ∨ ∃ p, post = '\n' :: p) :
    matchString (codecRe marker) (cleanContent (pre ++ '\n' :: (marker ++ post))) = true := by
  rw [cleanContent_eq]
  obtain ⟨X, hX⟩ := stripFrom_append_nl pre none (marker ++ post)
  rw [hX, stripFrom_append_of_no_hash marker post hm]
  exact matchFrom_append (codecRe marker) _
    (run_codecRe_marker_line marker _ (stripFrom_line_end post hpost)) X none

/-! ## Markers inside comments -/

theorem starLoop_rest_suffix (f : St → List St)
    (hf : ∀ st st2, st2 ∈ f st → st2.rest <:+ st.rest) :
    ∀ (n : Nat) (st st2 : St), st2 ∈ starLoop f n st → st2.rest <:+ st.rest
  | 0, st, st2, h => by
    simp only [starLoop, List.mem_singleton] at h
    rw [h]
  | n + 1, st, st2, h => by
    simp only [starLoop, List.mem_append, List.mem_flatMap, List.mem_filter,
      List.mem_singleton] at h
    rcases h with ⟨st1, ⟨h1, -⟩, h2⟩ | h
    · exact (starLoop_rest_suffix f hf n st1 st2 h2).trans (hf st st1 h1)
    · rw [h]

theorem lazyLoop_rest_suffix (f : St → List St)
    (hf : ∀ st st2, st2 ∈ f st → st2.rest <:+ st.rest) :
    ∀ (n : Nat) (st st2 : St), st2 ∈ lazyLoop f n st → st2.rest <:+ st.rest
  | 0, st, st2, h => by
    simp only [lazyLoop, List.mem_singleton] at h
    rw [h]
  | n + 1, st, st2, h => by
    simp only [lazyLoop, List.mem_cons, List.mem_flatMap, List.mem_filter] at h
    rcases h with h | ⟨st1, ⟨h1, -⟩, h2⟩
    · rw [h]
    · exact (lazyLoop_rest_suffix f hf n st1 st2 h2).trans (hf st st1 h1)

/-- A match only moves the cursor forward. -/
theorem run_rest_suffix : ∀ (re : Re) (st st2 : St), st2 ∈ run re st → st2.rest <:+ st.rest
  | .eps, st, st2, h => by
    simp only [run, List.mem_singleton] at h
    rw [h]
  | .chr c, ⟨p, [], g⟩, st2, h => by simp [run] at h
  | .chr c, ⟨p, d :: r, g⟩, st2, h => by
    by_cases hd : d = c
    · simp only [run, hd, if_true, List.mem_singleton] at h
      rw [h]
      exact List.suffix_cons _ _
    · simp [run, hd] at h
  | .cls q, ⟨p, [], g⟩, st2, h => by simp [run] at h
  | .cls q, ⟨p, d :: r, g⟩, st2, h => by
    by_cases hd : q d = true
    · simp only [run, hd, if_true, List.mem_singleton] at h
      rw [h]
      exact List.suffix_cons _ _
    · simp [run, hd] at h
  | .bol, st, st2, h => by
    simp only [run] at h
    split at h
    · rw [List.mem_singleton.mp h]
    · simp at h
  | .eol, ⟨p, [], g⟩, st2, h => by
    simp only [run, List.mem_singleton] at h
    rw [h]
  | .eol, ⟨p, d :: r, g⟩, st2, h => by
    by_cases hd : d = '\n'
    · subst hd
      simp only [run, if_true, List.mem_singleton] at h
      rw [h]
    · simp [run, hd] at h
  | .seq a b, st, st2, h => by
    simp only [run, List.mem_flatMap] at h
    obtain ⟨st1, h1, h2⟩ := h
    exact (run_rest_suffix b st1 st2 h2).trans (run_rest_suffix a st st1 h1)
  | .star a, st, st2, h =>
    starLoop_rest_suffix (run a) (run_rest_suffix a) _ st st2 h
  | .lazyStar a, st, st2, h =>
    lazyLoop_rest_suffix (run a) (run_rest_suffix a) _ st st2 h
  | .group a, st, st2, h => by
    simp only [run, List.mem_map] at h
    obtain ⟨st1, h1, h2⟩ := h
    rw [← h2]
    exact run_rest_suffix a st st1 h1

/-- A match of a codec pattern reads the marker. -/
theorem marker_of_run_codecRe (marker : Str) (st st2 : St)
    (h : st2 ∈ run (codecRe marker) st) : marker <:+: st.rest := by
  simp only [codecRe, run_seq, List.mem_flatMap] at h
  obtain ⟨s1, h1, s2, h2, s3, h3, s4, h4, -⟩ := h
  have hs3 : s3.rest <:+ st.rest :=
    (run_rest_suffix _ _ _ h3).trans ((run_rest_suffix _ _ _ h2).trans
      (run_rest_suffix _ _ _ h1))
  have hm : marker <+: s3.rest := by
    obtain ⟨p, r, g⟩ := s3
    rw [run_lits] at h4
    by_contra hno
    simp [hno] at h4
  exact hm.isInfix.trans hs3.isInfix

theorem marker_of_matchFrom (marker : Str) : ∀ (s : Str) (prev : Option Char),
    matchFrom (codecRe marker) prev s = true → marker <:+: s
  | [], prev, h => by
    simp only [matchFrom, Bool.not_eq_true', List.isEmpty_eq_false] at h
    obtain ⟨st2, hst⟩ := List.exists_mem_of_ne_nil _ h
    exact marker_of_run_codecRe marker _ st2 hst
  | c :: s, prev, h => by
    simp only [matchFrom, Bool.or_eq_true, Bool.not_eq_true', List.isEmpty_eq_false] at h
    rcases h with h | h
    · obtain ⟨st2, hst⟩ := List.exists_mem_of_ne_nil _ h
      exact marker_of_run_codecRe marker _ st2 hst
    · exact (marker_of_matchFrom marker s (some c) h).trans (List.suffix_cons c s).isInfix

theorem not_inClosedComment_cons (c : Char) (u v : Str) (hc : c ≠ '#')
    (h : ¬ InClosedComment u v) : ¬ InClosedComment (c :: u) v := by
  rintro ⟨⟨u1, u2, h1, h2⟩, hv⟩
  cases u1 with
  | nil =>
    simp only [List.nil_append, List.cons.injEq] at h1
    exact hc h1.1
  | cons d u1 =>
    simp only [List.cons_append, List.cons.injEq] at h1
    exact h ⟨⟨u1, u2, h1.2, h2⟩, hv⟩

theorem not_inClosedComment_after_nl (x u v : Str) (h : ¬ InClosedComment u v) :
    ¬ InClosedComment (x ++ '\n' :: u) v := by
  rintro ⟨⟨u1, u2, h1, h2⟩, hv⟩
  rcases List.append_eq_append_iff.mp h1 with ⟨a, ha, hb⟩ | ⟨a, ha, hb⟩
  · cases a with
    | nil =>
      simp only [List.nil_append, List.cons.injEq] at hb
      exact absurd hb.1 (by decide)
    | cons d a =>
      simp only [List.cons_append, List.cons.injEq] at hb
      exact h ⟨⟨a, u2, hb.2, h2⟩, hv⟩
  · have hmem : '\n' ∈ '#' :: u2 := by
      rw [hb]
      simp
    rcases List.mem_cons.mp hmem with h3 | h3
    · exact absurd h3 (by decide)
    · exact h2 h3

theorem afterNL_split : ∀ (t r : Str), afterNL t = some r →
    ∃ x, t = x ++ '\n' :: r
  | [], r, h => by simp [afterNL] at h
  | c :: t, r, h => by
    by_cases hc : c = '\n'
    · simp only [afterNL, hc, if_true, Option.some.injEq] at h
      exact ⟨[], by simp [hc, h]⟩
    · simp only [afterNL, hc, if_false] at h
      obtain ⟨x, hx⟩ := afterNL_split t r h
      exact ⟨c :: x, by simp [hx]⟩

theorem afterNL_none : ∀ (t : Str), afterNL t = none → '\n' ∉ t
  | [], _ => by simp
  | c :: t, h => by
    by_cases hc : c = '\n'
    · simp [afterNL, hc] at h
    · simp only [afterNL, hc, if_false] at h
      have := afterNL_none t h
      simp only [List.mem_cons, not_or]
      exact ⟨fun h2 => hc h2.symm, this⟩

/-- A text without `#` and line feed that is read at the start of the cleaned
text is read at the start of the source text. -/
theorem starts_source_of_starts_clean : ∀ (t m : Str), '#' ∉ m → '\n' ∉ m →
    m <+: stripFrom none t → m <+: t
  | [], m, _, _, h => by simpa [stripFrom] using h
  | c :: t, m, h1, h2, h => by
    cases m with
    | nil => exact List.nil_prefix
    | cons d m =>
      have hd1 : d ≠ '#' := fun e => h1 (by simp [e])
      have hd2 : d ≠ '\n' := fun e => h2 (by simp [e])
      by_cases hc : c = '#'
      · exfalso
        subst hc
        simp only [stripFrom, if_true] at h
        rw [stripFrom_some] at h
        cases hn : afterNL t with
        | none =>
          rw [hn] at h
          exact hd1 (List.cons_prefix_cons.mp h).1
        | some r =>
          rw [hn] at h
          exact hd2 (List.cons_prefix_cons.mp h).1
      · simp only [stripFrom, hc, if_false] at h
        obtain ⟨hcd, hrest⟩ := List.cons_prefix_cons.mp h
        refine List.cons_prefix_cons.mpr ⟨hcd, ?_⟩
        exact starts_source_of_starts_clean t m
          (fun e => h1 (List.mem_cons_of_mem _ e)) (fun e => h2 (List.mem_cons_of_mem _ e)) hrest

/-- An instance of the marker in the cleaned text is an instance in the source
text that does not lie in a closed comment. -/
theorem source_instance_of_clean_instance (m : Str) (hm : m ≠ []) (h1 : '#' ∉ m)
    (h2 : '\n' ∉ m) : ∀ (n : Nat) (t : Str), t.length ≤ n → m <:+: stripFrom none t →
      ∃ u v, t = u ++ m ++ v ∧ ¬ InClosedComment u v
  | _, [], _, h => by
    simp only [stripFrom, List.infix_nil] at h
    exact absurd h hm
  | 0, c :: t, hn, _ => by simp at hn
  | n + 1, c :: t, hn, h => by
    have hlen : t.length ≤ n := by simpa using hn
    obtain ⟨d, m2, hdm⟩ := List.exists_cons_of_ne_nil hm
    have hd1 : d ≠ '#' := fun e => h1 (by simp [hdm, e])
    have hd2 : d ≠ '\n' := fun e => h2 (by simp [hdm, e])
    by_cases hc : c = '#'
    · subst hc
      simp only [stripFrom, if_true] at h
      rw [stripFrom_some] at h
      cases hnl : afterNL t with
      | none =>
        rw [hnl] at h
        simp only [List.singleton_append] at h
        rcases List.infix_cons_iff.mp h with h3 | h3
        · rw [hdm] at h3
          exact absurd (List.cons_prefix_cons.mp h3).1 hd1
        · obtain ⟨u, v, huv⟩ := h3
          refine ⟨'#' :: u, v, by simp [← huv], ?_⟩
          rintro ⟨-, hv⟩
          apply afterNL_none t hnl
          rw [← huv]
          simp [hv]
      | some r =>
        rw [hnl] at h
        simp only at h
        obtain ⟨x, hx⟩ := afterNL_split t r hnl
        have hr : r.length ≤ n := by
          have := afterNL_length t r hnl
          omega
        rcases List.infix_cons_iff.mp h with h3 | h3
        · rw [hdm] at h3
          exact absurd (List.cons_prefix_cons.mp h3).1 hd2
        · obtain ⟨u, v, huv, hno⟩ := source_instance_of_clean_instance m hm h1 h2 n r hr h3
          refine ⟨('#' :: x) ++ '\n' :: u, v, ?_, not_inClosedComment_after_nl _ u v hno⟩
          rw [hx, huv]
          simp
    · simp only [stripFrom, hc, if_false] at h
      rcases List.infix_cons_iff.mp h with h3 | h3
      · have h4 : m <+: stripFrom none (c :: t) := by
          simpa [stripFrom, hc] using h3
        obtain ⟨v, hv⟩ := starts_source_of_starts_clean (c :: t) m h1 h2 h4
        refine ⟨[], v, by simp [hv], ?_⟩
        rintro ⟨⟨u1, u2, hu, -⟩, -⟩
        simp at hu
      · obtain ⟨u, v, huv, hno⟩ := source_instance_of_clean_instance m hm h1 h2 n t hlen h3
        exact ⟨c :: u, v, by simp [huv], not_inClosedComment_cons c u v hc hno⟩

/-- When every instance of the marker lies in a comment that a line feed
closes, the codec pattern finds nothing in the cleaned text. -/
theorem no_match_of_closed_comments (marker : Str) (hm : marker ≠ []) (h1 : '#' ∉ marker)
    (h2 : '\n' ∉ marker) (t : Str)
    (h : ∀ u v, t = u ++ marker ++ v → InClosedComment u v) :
    matchString (codecRe marker) (cleanContent t) = false := by
  by_contra hne
  have hmatch : matchFrom (codecRe marker) none (cleanContent t) = true := by
    simpa [matchString] using hne
  have hin := marker_of_matchFrom marker _ none hmatch
  rw [cleanContent_eq] at hin
  obtain ⟨u, v, huv, hno⟩ :=
    source_instance_of_clean_instance marker hm h1 h2 t.length t (le_refl _) hin
  exact hno (h u v huv)

/-- Markers inside comments closed by a line feed leave both flags off. -/
theorem flags_off_of_closed_comments (t : Str) :
    ((∀ u v, t = u ++ CAPNP_CODEC_ANT ++ v → InClosedComment u v) → capnpGen t = false) ∧
    ((∀ u v, t = u ++ MSGP_CODEC_ANT ++ v → InClosedComment u v) → msgpGen t = false) :=
  ⟨no_match_of_closed_comments CAPNP_CODEC_ANT (by decide) (by decide) (by decide) t,
    no_match_of_closed_comments MSGP_CODEC_ANT (by decide) (by decide) (by decide) t⟩

/-! ## The extraction of the type names -/

theorem drop_length_takeWhile (p : Char → Bool) : ∀ s : Str,
    s.drop (s.takeWhile p).length = s.dropWhile p
  | [] => rfl
  | c :: s => by
    by_cases hc : p c = true
    · simp [List.takeWhile, List.dropWhile, hc, drop_length_takeWhile p s]
    · simp [List.takeWhile, List.dropWhile, hc]

theorem take_sub_dropWhile (p : Char → Bool) (s : Str) :
    s.take (s.length - (s.dropWhile p).length) = s.takeWhile p := by
  have h := List.takeWhile_append_dropWhile p s
  have hl : s.length - (s.dropWhile p).length = (s.takeWhile p).length := by
    have := congrArg List.length h
    simp only [List.length_append] at this
    omega
  rw [hl]
  have h2 := @List.take_left' _ (s.takeWhile p) (s.dropWhile p) _ rfl
  rw [h] at h2
  exact h2

/-- The pattern `[[:alpha:]]+` at a cursor. -/
theorem run_plus_alpha (q : Option Char) (r : Str) (g : Option Str) :
    (letterRun r = [] → run (plus (.cls isAlpha)) ⟨q, r, g⟩ = []) ∧
    (letterRun r ≠ [] → ∃ q2 tl,
      run (plus (.cls isAlpha)) ⟨q, r, g⟩ = ⟨q2, r.dropWhile isAlpha, g⟩ :: tl) := by
  cases r with
  | nil => simp [letterRun, plus, run]
  | cons c r =>
    by_cases hc : isAlpha c = true
    · refine ⟨by simp [letterRun, List.takeWhile, hc], fun _ => ?_⟩
      obtain ⟨q2, tl, h⟩ := starLoop_cls_head isAlpha g r r.length (some c) (le_refl _)
      refine ⟨q2, tl, ?_⟩
      have hrun : run (.cls isAlpha) ⟨q, c :: r, g⟩ = [⟨some c, r, g⟩] := by simp [run, hc]
      rw [plus, run_seq, hrun]
      simp only [List.flatMap_cons, List.flatMap_nil, List.append_nil]
      rw [run_star, h]
      simp [List.dropWhile, hc]
    · refine ⟨fun _ => ?_, by simp [letterRun, List.takeWhile, hc]⟩
      have hrun : run (.cls isAlpha) ⟨q, c :: r, g⟩ = [] := by simp [run, hc]
      rw [plus, run_seq, hrun]
      rfl

/-- The pattern `structTypeRe` at a cursor: it matches when the keyword is
read and a letter follows, and the first match takes the whole run of
letters. -/
theorem run_structTypeRe (q : Option Char) (s : Str) :
    (¬ (keyword <+: s ∧ letterRun (s.drop keyword.length) ≠ []) →
      run structTypeRe ⟨q, s, none⟩ = []) ∧
    (keyword <+: s ∧ letterRun (s.drop keyword.length) ≠ [] → ∃ q2 tl,
      run structTypeRe ⟨q, s, none⟩
        = ⟨q2, (s.drop keyword.length).dropWhile isAlpha,
            some (letterRun (s.drop keyword.length))⟩ :: tl) := by
  have hseq : run structTypeRe ⟨q, s, none⟩
      = (run (lits keyword) ⟨q, s, none⟩).flatMap (run (.group (plus (.cls isAlpha)))) := rfl
  rw [hseq, run_lits]
  by_cases hk : keyword <+: s
  · rw [if_pos hk]
    simp only [List.flatMap_cons, List.flatMap_nil, List.append_nil]
    rw [run_group]
    obtain ⟨h1, h2⟩ := run_plus_alpha ((keyword.getLast?).or q) (s.drop keyword.length) none
    constructor
    · intro hno
      have : letterRun (s.drop keyword.length) = [] := by
        by_contra hne
        exact hno ⟨hk, hne⟩
      rw [h1 this]
      rfl
    · rintro ⟨-, hne⟩
      obtain ⟨q2, tl, h⟩ := h2 hne
      rw [h]
      simp only [List.map_cons, take_sub_dropWhile]
      exact ⟨q2, _, rfl⟩
  · rw [if_neg hk]
    exact ⟨fun _ => rfl, fun h => absurd h.1 hk⟩

theorem scanDecls_skip (name : Str → Str) : ∀ (x s : Str),
    scanDecls name x.length (x ++ s) = scanDecls name 0 s
  | [], s => rfl
  | c :: x, s => by
    simp only [List.length_cons, List.cons_append, scanDecls]
    exact scanDecls_skip name x s

theorem scanDecls_skip_drop (name : Str → Str) (k : Nat) (s : Str) (hk : k ≤ s.length) :
    scanDecls name k s = scanDecls name 0 (s.drop k) := by
  have h := scanDecls_skip name (s.take k) (s.drop k)
  rw [List.take_append_drop, List.length_take, Nat.min_eq_left hk] at h
  exact h

/-- The library loop with `structTypeRe` is the scan with runs of letters. -/
theorem findAllLoop_structTypeRe : ∀ (fuel : Nat) (s : Str) (am : Bool) (q : Option Char),
    s.length < fuel →
      (findAllLoop structTypeRe fuel am q s).map (fun m => m.2) = scanDecls letterRun 0 s
  | 0, _, _, _, h => by omega
  | fuel + 1, s, am, q, h => by
    obtain ⟨h1, h2⟩ := run_structTypeRe q s
    by_cases hm : keyword <+: s ∧ letterRun (s.drop keyword.length) ≠ []
    · obtain ⟨q2, tl, hrun⟩ := h2 hm
      have hklen : keyword.length = 7 := rfl
      have hsl : keyword.length ≤ s.length := hm.1.length_le
      have hsplit := List.takeWhile_append_dropWhile isAlpha (s.drop keyword.length)
      have hlen : (letterRun (s.drop keyword.length)).length
          + ((s.drop keyword.length).dropWhile isAlpha).length + keyword.length = s.length := by
        have := congrArg List.length hsplit
        simp only [List.length_append, List.length_drop] at this
        simp only [letterRun]
        omega
      have hlt : ((s.drop keyword.length).dropWhile isAlpha).length < s.length := by omega
      cases s with
      | nil => rw [hklen] at hsl; simp at hsl
      | cons c r =>
        simp only [findAllLoop, hrun, if_pos hlt, List.map_cons, Option.getD_some,
          scanDecls, if_pos hm]
        congr 1
        rw [findAllLoop_structTypeRe fuel _ true q2 (by omega)]
        rw [scanDecls_skip_drop letterRun _ r
          (by simp only [List.length_cons] at hlen; omega)]
        congr 1
        have hd : (c :: r).drop keyword.length = r.drop (keyword.length - 1) := by
          rw [hklen]; rfl
        rw [← drop_length_takeWhile isAlpha, hd, List.drop_drop]
        congr 1
        simp only [letterRun, hd]
        omega
    · have hrun := h1 hm
      cases s with
      | nil => simp [findAllLoop, hrun, scanDecls]
      | cons c r =>
        simp only [findAllLoop, hrun, scanDecls, if_neg hm]
        exact findAllLoop_structTypeRe fuel r false (some c) (by simpa using h)

theorem typeNames_eq_scan (t : Str) : typeNames t = scanDecls letterRun 0 t :=
  findAllLoop_structTypeRe (t.length + 1) t false none (Nat.lt_succ_self _)

/-! ## Properties of the renaming loop -/

/-- C3: with the single name `n`, not empty, the renaming loop turns a text
that reads gap, `n`, gap, `n`, ..., last gap, where every `n` shown is the
leftmost instance in what is left and the last gap holds none, into the same
text with `Capn` written after each of these instances and every other
character as it was; and every text reads so. -/
theorem disambiguate_single (n : Str) (hn : n ≠ []) :
    (∀ (gaps : List Str) (last : Str),
        (∀ g ∈ gaps, ∀ k, k < g.length → ¬ n <+: (g ++ n).drop k) → ¬ n <:+: last →
        disambiguate [n] (gaps.flatMap (fun g => g ++ n) ++ last)
          = gaps.flatMap (fun g => g ++ (n ++ capnSuffix)) ++ last) ∧
    (∀ t : Str, ∃ (gaps : List Str) (last : Str),
        (∀ g ∈ gaps, ∀ k, k < g.length → ¬ n <+: (g ++ n).drop k) ∧ ¬ n <:+: last ∧
        t = gaps.flatMap (fun g => g ++ n) ++ last) := by
  have hne := ne_append_capn n
  constructor
  · intro gaps
    induction gaps with
    | nil =>
      intro last _ hlast
      rw [disambiguate_cons_of_ne n [] _ hn, disambiguate_nil]
      simpa using replace_absent last n _ hn hne hlast
    | cons g gs ih =>
      intro last hg hlast
      have ih' := ih last (fun g' hg' => hg g' (List.mem_cons_of_mem _ hg')) hlast
      rw [disambiguate_cons_of_ne n [] _ hn, disambiguate_nil] at ih' ⊢
      simp only [List.flatMap_cons, List.append_assoc]
      rw [replace_append_of_no_start n _ hn hne g, replace_at_start _ n _ hn hne, ih']
      · simp
      · intro k hk hpre
        apply hg g (List.mem_cons_self _ _) k hk
        have hsplit : (g ++ (n ++ (gs.flatMap (fun g => g ++ n) ++ last))).drop k
            = (g ++ n).drop k ++ (gs.flatMap (fun g => g ++ n) ++ last) := by
          rw [← List.append_assoc, List.drop_append_of_le_length]
          simp only [List.length_append]
          omega
        rw [hsplit] at hpre
        refine List.prefix_of_prefix_length_le hpre (List.prefix_append _ _) ?_
        simp only [List.length_drop, List.length_append]
        omega
  · intro t
    exact exists_leftmost_split n hn t.length t (le_refl _)

/-- C3, at the name `User`: `type User struct{}` becomes `type UserCapn struct{}`. -/
theorem disambiguate_single_witness :
    "User".toList ≠ [] ∧
      disambiguate ["User".toList] "type User struct\x7b\x7d".toList
        = "type UserCapn struct\x7b\x7d".toList :=
  ⟨by decide,
    (disambiguate_single "User".toList (by decide)).1 ["type ".toList] " struct\x7b\x7d".toList
      (by decide) (by decide)⟩

/-- C5: with the names `User`, `UserProfile` in this order, the text
`UserProfile{}` does not become `UserProfileCapn{}`: the rule of `User`
rewrites the inside of `UserProfile`, whose own rule then finds nothing, and
the result is the corrupted `UserCapnProfile{}` (one suffix, in the wrong
place; not the `UserCapnProfileCapn{}` of the spec's illustration). -/
theorem substring_hazard :
    disambiguate ["User".toList, "UserProfile".toList] "UserProfile\x7b\x7d".toList
        = "UserCapnProfile\x7b\x7d".toList ∧
      disambiguate ["User".toList, "UserProfile".toList] "UserProfile\x7b\x7d".toList
        ≠ "UserProfileCapn\x7b\x7d".toList ∧
      disambiguate ["User".toList, "UserProfile".toList] "UserProfile\x7b\x7d".toList
        ≠ "UserCapnProfileCapn\x7b\x7d".toList ∧
      replace "UserProfile\x7b\x7d".toList "User".toList ("User".toList ++ capnSuffix)
        = "UserCapnProfile\x7b\x7d".toList ∧
      ¬ "UserProfile".toList <:+: "UserCapnProfile\x7b\x7d".toList := by
  decide

/-- C6 at a schema that names `User` twice, once in a comment: the extracted
list is `User`, `User`, and the renaming loop adds the suffix twice,
`type UserCapnCapn struct{}`, where the list without the later copy gives
`type UserCapn struct{}`. -/
theorem duplicates_not_harmless :
    capnpGen "@0xa;\n$Codec.capnp;\nstruct User \x7b\x7d\n# struct User\n".toList = true ∧
      typeNames "@0xa;\n$Codec.capnp;\nstruct User \x7b\x7d\n# struct User\n".toList
        = ["User".toList, "User".toList] ∧
      disambiguate
          (typeNames "@0xa;\n$Codec.capnp;\nstruct User \x7b\x7d\n# struct User\n".toList)
          "type User struct\x7b\x7d".toList
        = "type UserCapnCapn struct\x7b\x7d".toList ∧
      disambiguate
          (dropLaterDuplicates
            (typeNames "@0xa;\n$Codec.capnp;\nstruct User \x7b\x7d\n# struct User\n".toList))
          "type User struct\x7b\x7d".toList
        = "type UserCapn struct\x7b\x7d".toList := by
  decide

/-- C10: when every listed name is not empty and some listed name has an
instance in the text, a second run of the renaming loop over its own result
changes it again: the result is longer, by a positive number of further
`Capn`. -/
theorem disambiguate_not_idempotent (names : List Str) (t : Str)
    (hne : ∀ n ∈ names, n ≠ []) (hocc : ∃ n ∈ names, n <:+: t) :
    disambiguate names (disambiguate names t) ≠ disambiguate names t ∧
      ∃ k, 0 < k ∧ (disambiguate names (disambiguate names t)).length
        = (disambiguate names t).length + 4 * k := by
  obtain ⟨n, hn, hin⟩ := hocc
  have h1 := disambiguate_longer names t ⟨n, hn, hne n hn, hin⟩
  have h2 := disambiguate_longer names _ (infix_disambiguate_of_longer names t h1)
  obtain ⟨k, hk⟩ := length_disambiguate names (disambiguate names t)
  refine ⟨?_, k, ?_, hk⟩
  · intro heq
    rw [heq] at h2
    exact Nat.lt_irrefl _ h2
  · omega

/-- C10, at the list `User`: `User` becomes `UserCapn`, then `UserCapnCapn`. -/
theorem disambiguate_not_idempotent_witness :
    disambiguate ["User".toList] "User".toList = "UserCapn".toList ∧
      disambiguate ["User".toList] "UserCapn".toList = "UserCapnCapn".toList ∧
      disambiguate ["User".toList] (disambiguate ["User".toList] "User".toList)
        ≠ disambiguate ["User".toList] "User".toList :=
  ⟨by decide, by decide,
    (disambiguate_not_idempotent ["User".toList] "User".toList (by decide)
      ⟨"User".toList, by decide, by decide⟩).1⟩

/-- C4 as stated fails: the names `User`, `Cap`, extracted from a schema that
declares both, are distinct, not empty and neither is part of the other, the
one instance of a name in `User{}` is the marked one, and yet the rule of
`Cap` fires on the suffix written by the rule of `User`: the result is
`UserCapCapnn{}`, not `UserCapn{}`. -/
theorem suffix_hazard :
    typeNames "struct User \x7b\x7d\nstruct Cap \x7b\x7d\n".toList = ["User".toList, "Cap".toList] ∧
      ["User".toList, "Cap".toList].Nodup ∧
      (∀ n ∈ ["User".toList, "Cap".toList], n ≠ []) ∧
      (∀ a ∈ ["User".toList, "Cap".toList], ∀ b ∈ ["User".toList, "Cap".toList],
        a <:+: b → a = b) ∧
      original [.site "User".toList, .plain '\x7b', .plain '\x7d'] = "User\x7b\x7d".toList ∧
      suffixed [.site "User".toList, .plain '\x7b', .plain '\x7d'] = "UserCapn\x7b\x7d".toList ∧
      disambiguate ["User".toList, "Cap".toList] "User\x7b\x7d".toList = "UserCapCapnn\x7b\x7d".toList ∧
      disambiguate ["User".toList, "Cap".toList]
          (original [.site "User".toList, .plain '\x7b', .plain '\x7d'])
        ≠ suffixed [.site "User".toList, .plain '\x7b', .plain '\x7d'] := by
  decide

/-- C4, amended: let the names be distinct and not empty, none part of
another, and none able to cover a character of the `Capn` written after
another; let the text be given with its instances of declared names marked,
every instance of a declared name in it being a marked one.  Then the renaming
loop returns the text with `Capn` after each marked instance and every other
character as it was. -/
theorem disambiguate_sites (names : List Str) (segs : List Seg)
    (hnodup : names.Nodup) (hne : ∀ n ∈ names, n ≠ [])
    (hpart : ∀ a ∈ names, ∀ b ∈ names, a <:+: b → a = b)
    (hsfx : ∀ a ∈ names, ∀ b ∈ names, a ≠ b → touchesSuffix a b = false)
    (hsites : ∀ n ∈ siteNames segs, n ∈ names)
    (hocc : ∀ b ∈ names, ∀ k, k < (original segs).length →
      b <+: (original segs).drop k → isSiteAt segs k b = true) :
    disambiguate names (original segs) = suffixed segs := by
  have hclean : ∀ b ∈ names, Clean [] b segs := by
    intro b hb
    apply clean_original b segs (fun n hn => hne n (hsites n (mem_siteNames segs n hn)))
    intro k hpre
    by_cases hk : k < (original segs).length
    · exact hocc b hb k hk hpre
    · rw [List.drop_of_length_le (Nat.le_of_not_lt hk)] at hpre
      exact absurd (List.prefix_nil.mp hpre) (hne b hb)
  obtain ⟨done2, hmem, heq⟩ :=
    disambiguate_render names segs hne hpart hsfx hclean names [] hnodup
      (fun _ h => h) (by simp) (by simp)
  rw [← render_nil_eq_original, heq,
    render_congr done2 names (fun n => by simpa using hmem n) segs,
    render_eq_suffixed names segs (fun n hn => hsites n (mem_siteNames segs n hn))]

/-- C4, amended, at the names `User`, `Post` and the text `User{Post}`. -/
theorem disambiguate_sites_witness :
    disambiguate ["User".toList, "Post".toList]
        (original [.site "User".toList, .plain '\x7b', .site "Post".toList, .plain '\x7d'])
      = suffixed [.site "User".toList, .plain '\x7b', .site "Post".toList, .plain '\x7d'] ∧
    original [.site "User".toList, .plain '\x7b', .site "Post".toList, .plain '\x7d']
      = "User\x7bPost\x7d".toList ∧
    suffixed [.site "User".toList, .plain '\x7b', .site "Post".toList, .plain '\x7d']
      = "UserCapn\x7bPostCapn\x7d".toList :=
  ⟨disambiguate_sites ["User".toList, "Post".toList]
    [.site "User".toList, .plain '\x7b', .site "Post".toList, .plain '\x7d']
    (by decide) (by decide) (by decide) (by decide) (by decide) (by decide),
    by decide, by decide⟩

/-! ## Properties of the directive scan -/

/-- C1 as stated fails on the first line: a text whose first line is the
marker, with or without a line feed after it, leaves the flag off. -/
theorem first_line_marker_ignored :
    capnpGen "$Codec.capnp;\n".toList = false ∧
      capnpGen "$Codec.capnp;\n@0xa;\n".toList = false ∧
      msgpGen "$Codec.msgp;\n".toList = false ∧
      capnpGen "\n$Codec.capnp;\n".toList = true := by
  decide

/-- C1, amended: when some line of the schema text other than the first is
the marker `$Codec.capnp;` and nothing else, `capnpGen` is true; and when some
line other than the first is the marker `$Codec.msgp;`, `msgpGen` is true. -/
theorem marker_line_requested (pre post : Str) (hpost : post = [] ∨ ∃ p, post = '\n' :: p) :
    capnpGen (pre ++ '\n' :: (CAPNP_CODEC_ANT ++ post)) = true ∧
      msgpGen (pre ++ '\n' :: (MSGP_CODEC_ANT ++ post)) = true :=
  ⟨matchString_marker_line CAPNP_CODEC_ANT (by decide) pre post hpost,
    matchString_marker_line MSGP_CODEC_ANT (by decide) pre post hpost⟩

/-- C1, amended, at a schema whose second line is the marker. -/
theorem marker_line_requested_witness :
    capnpGen "@0xa; # id\n$Codec.capnp;\nstruct A \x7b\x7d".toList = true ∧
      msgpGen "@0xa; # id\n$Codec.msgp;\nstruct A \x7b\x7d".toList = true :=
  marker_line_requested "@0xa; # id".toList "\nstruct A \x7b\x7d".toList
    (Or.inr ⟨"struct A \x7b\x7d".toList, rfl⟩)

/-- C2 at a comment that the end of the text closes: the comment is not
removed, and the marker inside it turns the flag on; the same comment closed
by a line feed is removed. -/
theorem unterminated_comment_kept :
    cleanContent "@0xa;\n# $Codec.capnp;".toList = "@0xa;\n# $Codec.capnp;".toList ∧
      capnpGen "@0xa;\n# $Codec.capnp;".toList = true ∧
      msgpGen "@0xa;\n# $Codec.msgp;".toList = true ∧
      cleanContent "@0xa;\n# $Codec.capnp;\n".toList = "@0xa;\n\n".toList ∧
      capnpGen "@0xa;\n# $Codec.capnp;\n".toList = false := by
  decide

/-! ## Properties of the extraction -/

/-- C7 at a declared name that holds a digit: on a schema with the Cap'n
Proto marker and the declaration `struct Point3D`, the pattern takes `Point`
where the identifier after the keyword is `Point3D`, and the renaming loop
turns `type Point3D struct{}` into `type PointCapn3D struct{}`. -/
theorem name_cut_at_digit :
    capnpGen "@0xa;\n$Codec.capnp;\nstruct Point3D \x7b\x7d\n".toList = true ∧
      typeNames "@0xa;\n$Codec.capnp;\nstruct Point3D \x7b\x7d\n".toList = ["Point".toList] ∧
      namesAfterEveryKeyword "@0xa;\n$Codec.capnp;\nstruct Point3D \x7b\x7d\n".toList
        = ["Point3D".toList] ∧
      disambiguate (typeNames "@0xa;\n$Codec.capnp;\nstruct Point3D \x7b\x7d\n".toList)
          "type Point3D struct\x7b\x7d".toList
        = "type PointCapn3D struct\x7b\x7d".toList := by
  decide

/-! ## Properties of the run -/

/-- The loop over `capnpArgs` writes the output directory after every
argument built so far, the include paths and the subcommand among them. -/
theorem capnpArgs_of_outdir (pkgDir outdir source : Str) (capnpGen : Bool)
    (h : outdir ≠ ".".toList) :
    capnpArgs pkgDir outdir source capnpGen
      = (["-I".toList ++ pkgDir,
          "-I".toList ++ pkgDir ++ "/vendor/github.com/glycerine/go-capnproto".toList,
          "compile".toList, "-opgo".toList] ++
          (if capnpGen then ["-ogo".toList] else [])).map (fun a => a ++ outdir)
        ++ [source] := by
  have h2 : ¬ outdir = ['.'] := h
  cases capnpGen <;> simp [capnpArgs, h2]

/-- C8 at the output directory `out`: the include paths and the subcommand
`compile` receive the directory as well, so the command differs from the one
with the directory on the output flags only. -/
theorem outdir_appended_to_every_argument :
    capnpArgs "/p".toList "out".toList "m.capnp".toList true
        = ["-I/pout".toList, "-I/p/vendor/github.com/glycerine/go-capnprotoout".toList,
            "compileout".toList, "-opgoout".toList, "-ogoout".toList, "m.capnp".toList] ∧
      argsWithOutdirOnOutputFlags "/p".toList "out".toList "m.capnp".toList true
        = ["-I/p".toList, "-I/p/vendor/github.com/glycerine/go-capnproto".toList,
            "compile".toList, "-opgoout".toList, "-ogoout".toList, "m.capnp".toList] ∧
      capnpArgs "/p".toList "out".toList "m.capnp".toList true
        ≠ argsWithOutdirOnOutputFlags "/p".toList "out".toList "m.capnp".toList true ∧
      capnpArgs "/p".toList ".".toList "m.capnp".toList true
        = argsWithOutdirOnOutputFlags "/p".toList [] "m.capnp".toList true := by
  decide

theorem countP_msgpStage (join : Str → Str → Str) (fl : Flags) (w : World) (name : Str)
    (mg : Bool) : (msgpStage join fl w name mg).countP isMsgp = if mg then 1 else 0 := by
  cases mg <;> cases hw : w.msgpOk <;> simp [msgpStage, hw, isMsgp, List.countP_cons]

theorem countP_capnStage (join : Str → Str → Str) (fl : Flags) (w : World) (name src : Str)
    (cg mg : Bool) :
    (capnStage join fl w name src cg mg).countP isMsgp
      = if mg = true ∧ (cg = true → w.capnpOut ≠ none ∧ w.writeOk = true) then 1 else 0 := by
  cases cg
  · simp [capnStage, countP_msgpStage]
  · cases ho : w.capnpOut <;> cases hw : w.writeOk <;>
      simp [capnStage, ho, hw, countP_msgpStage, isMsgp, List.countP_cons]

theorem countP_capnpStage (join : Str → Str → Str) (fl : Flags) (w : World)
    (name src pkgDir : Str) (cg mg : Bool) :
    (capnpStage join fl w name src pkgDir cg mg).countP isMsgp
      = if w.capnpOk = true ∧ mg = true ∧ (cg = true → w.capnpOut ≠ none ∧ w.writeOk = true)
        then 1 else 0 := by
  cases hc : w.capnpOk <;>
    simp [capnpStage, hc, countP_capnStage, isMsgp, List.countP_cons]

/-- The number of calls of the Msgp generator in a run. -/
theorem countP_main (join : Str → Str → Str) (fl : Flags) (w : World) :
    (main join fl w).countP isMsgp
      = if fl.source ≠ [] ∧ w.pkgDir ≠ none ∧
          (fl.outdir ≠ ".".toList → w.dirExists = true ∨ w.mkdirOk = true) ∧
          w.capnpOk = true ∧
          ∃ src, w.sourceData = some src ∧ msgpGen src = true ∧
            (capnpGen src = true → w.capnpOut ≠ none ∧ w.writeOk = true)
        then 1 else 0 := by
  unfold main
  by_cases hs : fl.source = []
  · simp [hs, isMsgp]
  · cases hp : w.pkgDir with
    | none => simp [hs, isMsgp]
    | some pkgDir =>
      cases hd : w.sourceData with
      | none => simp [hs, isMsgp, List.countP_cons]
      | some src =>
        by_cases ho : fl.outdir = ".".toList
        · simp [hs, ho, isMsgp, List.countP_cons, countP_capnpStage]
        · have ho2 : ¬ fl.outdir = ['.'] := ho
          cases he : w.dirExists <;> cases hm : w.mkdirOk <;>
            simp [hs, ho2, isMsgp, List.countP_cons, countP_capnpStage]

theorem capnpStage_of_failure (join : Str → Str → Str) (fl : Flags) (w : World)
    (name src pkgDir : Str) (cg mg : Bool) (h : w.capnpOk = false) :
    capnpStage join fl w name src pkgDir cg mg
      = [.exec "capnp".toList (capnpArgs pkgDir fl.outdir fl.source cg), .exit 1] := by
  simp [capnpStage, h]

/-- C9: in every run the Msgp generator is called at most once; it is called
only when `msgpGen` is true, `capnp` succeeded and, when `capnpGen` is true,
the generated file was read and written back; a schema without the Msgp
marker never has it called; and a run in which `capnp` fails is the reading
of the schema and the creation of the directory, at most, then that one call
of `capnp` when the run gets that far, then the exit with status 1 and
nothing else. -/
theorem msgp_gating (join : Str → Str → Str) (fl : Flags) (w : World) :
    (main join fl w).countP isMsgp ≤ 1 ∧
    ((main join fl w).countP isMsgp = 1 →
      w.capnpOk = true ∧ ∃ src, w.sourceData = some src ∧ msgpGen src = true ∧
        (capnpGen src = true → w.capnpOut ≠ none ∧ w.writeOk = true)) ∧
    (∀ src, w.sourceData = some src → msgpGen src = false →
      (main join fl w).countP isMsgp = 0) ∧
    (w.capnpOk = false → ∃ pre : List Event,
      (∀ e ∈ pre, e = .readFile fl.source ∨ e = .mkdirAll fl.outdir) ∧
      (main join fl w = pre ++ [.exit 1] ∨
        ∃ pkgDir src, w.pkgDir = some pkgDir ∧ w.sourceData = some src ∧
          main join fl w = pre ++
            [.exec "capnp".toList (capnpArgs pkgDir fl.outdir fl.source (capnpGen src)),
              .exit 1])) := by
  refine ⟨?_, ?_, ?_, ?_⟩
  · rw [countP_main]
    split <;> omega
  · rw [countP_main]
    intro h
    split at h
    · rename_i hc
      exact ⟨hc.2.2.2.1, hc.2.2.2.2⟩
    · omega
  · intro src hsrc hmg
    rw [countP_main, if_neg]
    rintro ⟨-, -, -, -, src2, h2, h3, -⟩
    rw [hsrc] at h2
    cases h2
    rw [hmg] at h3
    cases h3
  · intro hfail
    by_cases hs : fl.source = []
    · exact ⟨[], by simp, Or.inl (by simp [main, hs])⟩
    · cases hp : w.pkgDir with
      | none => exact ⟨[], by simp, Or.inl (by simp [main, hs, hp])⟩
      | some pkgDir =>
        cases hd : w.sourceData with
        | none =>
          exact ⟨[.readFile fl.source], by simp, Or.inl (by simp [main, hs, hp, hd])⟩
        | some src =>
          have hstage := capnpStage_of_failure join fl w
            (trimSuffix fl.source ".capnp".toList) src pkgDir (capnpGen src) (msgpGen src) hfail
          by_cases ho : fl.outdir = ".".toList
          · refine ⟨[.readFile fl.source], by simp, Or.inr ⟨pkgDir, src, rfl, rfl, ?_⟩⟩
            simp only [main, hs, hp, hd, ho, hstage, if_false, ne_eq, not_true_eq_false]
            rfl
          · cases he : w.dirExists with
            | true =>
              refine ⟨[.readFile fl.source], by simp, Or.inr ⟨pkgDir, src, rfl, rfl, ?_⟩⟩
              simp only [main, hs, hp, hd, ho, he, hstage, if_false, if_true, ne_eq,
                not_false_eq_true]
              rfl
            | false =>
              cases hm : w.mkdirOk with
              | true =>
                refine ⟨[.readFile fl.source, .mkdirAll fl.outdir], by simp,
                  Or.inr ⟨pkgDir, src, rfl, rfl, ?_⟩⟩
                simp only [main, hs, hp, hd, ho, he, hm, hstage, if_false, if_true, ne_eq,
                  not_false_eq_true]
                rfl
              | false =>
                refine ⟨[.readFile fl.source, .mkdirAll fl.outdir], by simp, Or.inl ?_⟩
                simp only [main, hs, hp, hd, ho, he, hm, if_false, if_true, ne_eq,
                  not_false_eq_true]
                simp

/-- A run on a schema with the Cap'n Proto marker only: `capnp` is called
once with `-ogo`, the generated file is read and written back with the
suffixes, and the Msgp generator is not called. -/
theorem run_with_primary_marker_only :
    main (fun d n => if d = ".".toList then n else d ++ "/".toList ++ n)
        ⟨".".toList, "m.capnp".toList, false⟩
        ⟨some "/p".toList, some "@0xa;\n$Codec.capnp;\nstruct A \x7b\x7d".toList, true, true, true,
          some "type A struct\x7b\x7d".toList, true, true⟩
      = [.readFile "m.capnp".toList,
          .exec "capnp".toList ["-I/p".toList,
            "-I/p/vendor/github.com/glycerine/go-capnproto".toList, "compile".toList,
            "-opgo".toList, "-ogo".toList, "m.capnp".toList],
          .readFile "m.capnp.go".toList,
          .writeFile "m.capnp.go".toList "type ACapn struct\x7b\x7d".toList,
          .exit 0] := by
  decide

end Caps
